import Mathlib

/-!
Verification of the `utili` tree-copier (`CopyDir2`, `copyFile`, `DotRename`,
`IdentityRename` and the template machinery they invoke).

The Go code is embedded shallowly:

* The filesystem is an inductive tree `Node` (a directory with named entries,
  or a regular file carrying its content and permission mode).  Paths are
  lists of name components; `filepath.Join dir name` becomes `dir ++ [name]`
  and `filepath.Base` becomes the last component.
* The library calls (`os.Stat`, `os.MkdirAll`, `ioutil.ReadDir`,
  `os.OpenFile` with `O_CREATE|O_EXCL`, file writes) are modelled as
  functions on that tree, with the error strings the Go standard library
  produces (abbreviated where no theorem depends on the exact text).
* Go's `html/template` engine, as used here (`Parse`,
  `Option("missingkey=error")`, `Execute` against a `map[string]string`),
  is modelled for the sub-language the data supports: literal text and
  single field actions `\x7b\x7b.key\x7d\x7d`.  Execution substitutes the
  HTML-escaped value (the engine is the `html/template` package, not
  `text/template`), fails on a missing key, and writes its output
  incrementally, so a failing execution leaves the prefix rendered so far.
* `CopyDir2` recurses on the real filesystem it is mutating; copying a tree
  into itself diverges in Go, so the embedding takes a recursion-depth fuel
  and returns an error when the fuel runs out.  All theorems either hold for
  every fuel or hypothesise a successful run.
-/

namespace Utili

/-- A filesystem node: a regular file (content bytes and permission mode)
or a directory (named entries and permission mode).  Entry lists are
ordered; lookup takes the first match, as a real directory has at most one
entry per name. -/
inductive Node where
  | file (content : String) (mode : Nat)
  | dir (entries : List (String × Node)) (mode : Nat)

/-- A filesystem path, as the list of its name components. -/
abbrev Path := List String

/-- `TemplateData` of the Go code: the `map[string]string` passed to
`template.Execute`, as an association list (first match wins). -/
abbrev TemplateData := List (String × String)

/-- `RenameFn` of the Go code. -/
abbrev RenameFn := String → String

/-- First entry of a directory listing with the given name. -/
def lookupEntry : List (String × Node) → String → Option Node
  | [], _ => none
  | (k, v) :: rest, name => if k = name then some v else lookupEntry rest name

/-- Replace the first entry with the given name, or append a new one. -/
def setEntry : List (String × Node) → String → Node → List (String × Node)
  | [], name, n => [(name, n)]
  | (k, v) :: rest, name, n =>
    if k = name then (name, n) :: rest else (k, v) :: setEntry rest name n

/-- Resolve a path from a node (the `os.Stat` view of the tree). -/
def Node.find? : Node → Path → Option Node
  | n, [] => some n
  | Node.file _ _, _ :: _ => none
  | Node.dir es _, name :: rest =>
    match lookupEntry es name with
    | none => none
    | some child => Node.find? child rest

/-- Whether a node is a directory (`FileInfo.IsDir`). -/
def Node.isDirNode : Node → Bool
  | Node.file _ _ => false
  | Node.dir _ _ => true

/-- Content of the regular file at a path, if any (observation helper). -/
def contentAt (root : Node) (p : Path) : Option String :=
  match Node.find? root p with
  | some (Node.file c _) => some c
  | _ => none

/-- Whether a path resolves to a directory (observation helper). -/
def isDirAt (root : Node) (p : Path) : Bool :=
  match Node.find? root p with
  | some (Node.dir _ _) => true
  | _ => false

/-- Render a path the way the Go code's error messages do. -/
def pathStr (p : Path) : String := String.intercalate "/" p

/-- `filepath.Base`: the last component of a path. -/
def pathBase (p : Path) : String := p.getLast?.getD "."

/-- Models `os.MkdirAll(p, perm)`: create the directory and every missing
parent with mode `perm`, succeed if it already exists as a directory, fail
if any component exists as a regular file. -/
def mkdirAll : Node → Path → Nat → Except String Node
  | Node.file _ _, _, _ => Except.error "mkdir: not a directory"
  | Node.dir es m, [], _ => Except.ok (Node.dir es m)
  | Node.dir es m, name :: rest, perm =>
    match lookupEntry es name with
    | some child =>
      (mkdirAll child rest perm).map (fun c => Node.dir (setEntry es name c) m)
    | none =>
      (mkdirAll (Node.dir [] perm) rest perm).map
        (fun c => Node.dir (setEntry es name c) m)

/-- Write (create or overwrite) the regular file at a path, mode `perm`.
Fails (`none`) if a parent is missing or not a directory, or if the path
itself is an existing directory.  Used to model the destination file handle
of `os.OpenFile(..., O_RDWR|O_CREATE|O_EXCL, 0660)` and the writes to it;
the `O_EXCL` existence check is made by the caller. -/
def writeFileAt : Node → Path → String → Nat → Option Node
  | _, [], _, _ => none
  | Node.file _ _, _ :: _, _, _ => none
  | Node.dir es m, [name], c, perm =>
    match lookupEntry es name with
    | some (Node.dir _ _) => none
    | _ => some (Node.dir (setEntry es name (Node.file c perm)) m)
  | Node.dir es m, name :: name2 :: rest, c, perm =>
    match lookupEntry es name with
    | none => none
    | some child =>
      (writeFileAt child (name2 :: rest) c perm).map
        (fun c2 => Node.dir (setEntry es name c2) m)

/-- One entry returned by `ioutil.ReadDir`: its name and whether it is a
directory. -/
structure DirEntry where
  name : String
  isDir : Bool

/-- Go's `<` on strings, code point by code point (byte-wise on ASCII). -/
def charsLt : List Char → List Char → Bool
  | [], [] => false
  | [], _ :: _ => true
  | _ :: _, [] => false
  | a :: as, b :: bs =>
    if a.toNat < b.toNat then true
    else if b.toNat < a.toNat then false
    else charsLt as bs

/-- String order used by Go when sorting (`names[i] < names[j]`). -/
def nameLt (a b : String) : Bool := charsLt a.data b.data

/-- Insert a directory entry into a name-sorted list. -/
def insertDirEntry (e : DirEntry) : List DirEntry → List DirEntry
  | [] => [e]
  | x :: xs => if nameLt e.name x.name then e :: x :: xs else x :: insertDirEntry e xs

/-- `ioutil.ReadDir` sorts the listing by file name. -/
def sortDirEntries (l : List DirEntry) : List DirEntry :=
  l.foldr insertDirEntry []

/-- Models `ioutil.ReadDir`: the entries of the directory at a path, sorted
by name. -/
def readDir (root : Node) (p : Path) : Except String (List DirEntry) :=
  match Node.find? root p with
  | some (Node.dir es _) =>
    Except.ok (sortDirEntries (es.map (fun kv => ⟨kv.1, kv.2.isDirNode⟩)))
  | some (Node.file _ _) =>
    Except.error ("readdirent " ++ pathStr p ++ ": not a directory")
  | none => Except.error ("open " ++ pathStr p ++ ": no such file or directory")

/-! ## The template engine

Model of Go's `html/template` as used by the code: `Parse` on the source
text, `Option("missingkey=error")`, then `Execute` against a
`map[string]string`.  The sub-language covered is literal text plus single
field actions `\x7b\x7b.key\x7d\x7d` (spaces around the field allowed);
any other action is a parse error, as it is in Go for actions like
`\x7b\x7bkey\x7d\x7d` that name an undefined function.  Richer Go actions
(pipelines, control flow, `\x7b\x7b.\x7d\x7d`) are outside the model. -/

/-- A parsed template item: literal text or a field action on one key. -/
inductive Item where
  | lit (s : String)
  | field (k : String)

/-- Characters allowed in a field name (Go lexer's alphanumerics). -/
def isIdentChar (c : Char) : Bool := c.isAlphanum || c = '_'

/-- Strip leading and trailing whitespace of an action's text. -/
def trimSpaceChars (l : List Char) : List Char :=
  ((l.dropWhile (fun c => c.isWhitespace)).reverse.dropWhile
    (fun c => c.isWhitespace)).reverse

/-- Parse the text between `\x7b\x7b` and `\x7d\x7d`. -/
def parseAction (a : List Char) : Except String Item :=
  match trimSpaceChars a with
  | [] => Except.error "missing value for command"
  | '.' :: rest =>
    if !rest.isEmpty && rest.all isIdentChar then
      Except.ok (Item.field (String.mk rest))
    else Except.error "bad character in action"
  | c :: rest =>
    if (c :: rest).all isIdentChar then
      Except.error ("function " ++ String.mk (c :: rest) ++ " not defined")
    else Except.error "bad character in action"

/-- Prepend a character to the first (literal) item. -/
def consLit (c : Char) : List Item → List Item
  | Item.lit s :: its => Item.lit (String.mk (c :: s.data)) :: its
  | its => Item.lit (String.mk [c]) :: its

/-- Template scanner.  `none` mode is literal text; `some acc` is inside an
action whose text so far is `acc` (reversed). -/
def scanT : List Char → Option (List Char) → Except String (List Item)
  | [], none => Except.ok []
  | [], some _ => Except.error "unclosed action"
  | '\x7b' :: '\x7b' :: rest, none => scanT rest (some [])
  | '\x7d' :: '\x7d' :: rest, some acc =>
    (parseAction acc.reverse).bind
      (fun it => (scanT rest none).map (fun its => it :: its))
  | c :: rest, none => (scanT rest none).map (consLit c)
  | c :: rest, some acc => scanT rest (some (c :: acc))

/-- `template.Parse` on the model's sub-language. -/
def parseTemplate (s : String) : Except String (List Item) :=
  scanT s.data none

/-- The `html/template` escaper for a substituted value in plain-text
context: `<`, `>`, `&`, the apostrophe and the double quote are escaped. -/
def escapeChar (c : Char) : String :=
  if c = '<' then "&lt;"
  else if c = '>' then "&gt;"
  else if c = '&' then "&amp;"
  else if c = '\x27' then "&#39;"
  else if c = '\x22' then "&#34;"
  else String.mk [c]

/-- HTML-escape a value before substituting it. -/
def htmlEscape (s : String) : String :=
  String.join (s.data.map escapeChar)

/-- Key lookup in the template data (Go map indexing). -/
def lookupData : TemplateData → String → Option String
  | [], _ => none
  | (k, v) :: rest, key => if k = key then some v else lookupData rest key

/-- `template.Execute` with `missingkey=error`: render items left to right,
appending to `acc`.  Returns the output written so far and, when a field's
key is absent from the data, the error; the prefix rendered before the
failing field has already been written. -/
def renderItems (td : TemplateData) : List Item → String → String × Option String
  | [], acc => (acc, none)
  | Item.lit s :: rest, acc => renderItems td rest (acc ++ s)
  | Item.field k :: rest, acc =>
    match lookupData td k with
    | none => (acc, some ("map has no entry for key \x22" ++ k ++ "\x22"))
    | some v => renderItems td rest (acc ++ htmlEscape v)

/-- Insert a key/value pair into a key-sorted list (for `fmt`'s rendering
of a map, which sorts keys). -/
def insertKV (kv : String × String) : TemplateData → TemplateData
  | [] => [kv]
  | x :: xs => if nameLt kv.1 x.1 then kv :: x :: xs else x :: insertKV kv xs

/-- `fmt.Sprintf("%v", tmplData)`: Go prints a map sorted by key. -/
def fmtData (td : TemplateData) : String :=
  "map[" ++
    String.intercalate " "
      ((td.foldr insertKV []).map (fun kv => kv.1 ++ ":" ++ kv.2)) ++ "]"

/-! ## The tree copier -/

/-- `strings.Replace(s, old, new, 1)` on character lists: replace the first
occurrence of `pat`. -/
def replaceFirst (pat rep : List Char) : List Char → List Char
  | [] => []
  | c :: rest =>
    if pat.isPrefixOf (c :: rest) then rep ++ (c :: rest).drop pat.length
    else c :: replaceFirst pat rep rest

/-- Whether `pat` occurs as a contiguous sublist. -/
def hasSubstr (pat : List Char) : List Char → Bool
  | [] => pat.isPrefixOf ([] : List Char)
  | c :: rest => pat.isPrefixOf (c :: rest) || hasSubstr pat rest

/-- `DotRename`: `strings.Replace(name, "dot.", ".", 1)`. -/
def DotRename (name : String) : String :=
  String.mk (replaceFirst "dot.".data ".".data name.data)

/-- `IdentityRename`: the name unchanged. -/
def IdentityRename (name : String) : String := name

/-- `strings.TrimSuffix`: drop the trailing `suf` if present, else return
`s` unchanged. -/
def trimSuffix (s suf : String) : String :=
  if suf.data.isSuffixOf s.data then
    String.mk (s.data.take (s.data.length - suf.data.length))
  else s

/-- The file-name transformation of `CopyDir2` (lines 109–126): when the
template data is non-empty, strip a trailing `.template` from the name —
whether or not the name has that suffix the remaining steps run — then
parse the name as a template and render it against the data. -/
def computeName (td : TemplateData) (name0 : String) (srcChild : Path) :
    Except String String :=
  if td.isEmpty then Except.ok name0
  else
    let name1 := trimSuffix name0 ".template"
    match parseTemplate name1 with
    | Except.error e =>
      Except.error ("parsing file name as template " ++ pathStr srcChild ++ ": " ++ e)
    | Except.ok items =>
      match renderItems td items "" with
      | (_, some e) =>
        Except.error ("executing template file name " ++ pathStr srcChild ++
          " with data " ++ fmtData td ++ ": " ++ e)
      | (out, none) => Except.ok out

/-- `copyFile(srcPath, dstPath, tmplData)`: open the source, create the
destination exclusively (error if it exists) with mode 0660 = 432, then
either stream the bytes (empty data) or parse and execute the content as a
template, writing the rendered output — on a failed execution the output
produced before the failure has already been written to the destination
file, which is left in place. -/
def copyFile (root : Node) (srcPath dstPath : Path) (td : TemplateData) :
    Node × Except String Unit :=
  match Node.find? root srcPath with
  | none =>
    (root, Except.error ("opening src file: open " ++ pathStr srcPath ++
      ": no such file or directory"))
  | some srcNode =>
    match Node.find? root dstPath with
    | some _ =>
      (root, Except.error ("creating dst file: open " ++ pathStr dstPath ++
        ": file exists"))
    | none =>
      match writeFileAt root dstPath "" 432 with
      | none =>
        (root, Except.error ("creating dst file: open " ++ pathStr dstPath ++
          ": no such file or directory"))
      | some root1 =>
        match srcNode with
        | Node.dir _ _ =>
          (root1, Except.error ("read " ++ pathStr srcPath ++ ": is a directory"))
        | Node.file c _ =>
          if td.isEmpty then
            match writeFileAt root1 dstPath c 432 with
            | none => (root1, Except.error ("write " ++ pathStr dstPath ++ ": i/o error"))
            | some root2 => (root2, Except.ok ())
          else
            match parseTemplate c with
            | Except.error e =>
              (root1, Except.error ("parsing template " ++ pathStr srcPath ++ ": " ++ e))
            | Except.ok items =>
              match renderItems td items "" with
              | (out, some e) =>
                match writeFileAt root1 dstPath out 432 with
                | none => (root1, Except.error ("write " ++ pathStr dstPath ++ ": i/o error"))
                | some root2 =>
                  (root2, Except.error ("executing template " ++ pathStr srcPath ++
                    " with data " ++ fmtData td ++ ": " ++ e))
              | (out, none) =>
                match writeFileAt root1 dstPath out 432 with
                | none => (root1, Except.error ("write " ++ pathStr dstPath ++ ": i/o error"))
                | some root2 => (root2, Except.ok ())

/-- The per-entry loop of `CopyDir2` (lines 102–132): directories recurse
through `step` (the recursive `CopyDir2` call with the already-renamed
target as the new destination); regular files go through the name
transformation and `copyFile`.  The first error aborts the loop. -/
def processEntries (step : Node → Path → Node × Except String Unit)
    (root : Node) (src tgt : Path) (td : TemplateData) :
    List DirEntry → Node × Except String Unit
  | [] => (root, Except.ok ())
  | e :: rest =>
    if e.isDir then
      match step root (src ++ [e.name]) with
      | (root1, Except.error err) => (root1, Except.error err)
      | (root1, Except.ok _) => processEntries step root1 src tgt td rest
    else
      match computeName td e.name (src ++ [e.name]) with
      | Except.error err => (root, Except.error err)
      | Except.ok name =>
        match copyFile root (src ++ [e.name]) (tgt ++ [name]) td with
        | (root1, Except.error err) => (root1, Except.error err)
        | (root1, Except.ok _) => processEntries step root1 src tgt td rest

/-- `CopyDir2(src, dst, rename, tmplData)`: check that `src` and `dst` are
directories (the error message interpolates `dst` in both cases, as the Go
code does), create `dst/rename(Base(src))` with mode 0770 = 504, list the
source and process each entry.  The extra fuel argument bounds the
recursion depth — the Go function can recurse forever when the destination
lies inside the source. -/
def CopyDir2 : Nat → Node → Path → Path → RenameFn → TemplateData →
    Node × Except String Unit
  | 0, root, _, _, _, _ => (root, Except.error "copydir: recursion depth exceeded")
  | Nat.succ fuel, root, src, dst, rn, td =>
    match Node.find? root src with
    | none =>
      (root, Except.error ("stat " ++ pathStr src ++ ": no such file or directory"))
    | some sn =>
      if sn.isDirNode then
        match Node.find? root dst with
        | none =>
          (root, Except.error ("stat " ++ pathStr dst ++ ": no such file or directory"))
        | some dn =>
          if dn.isDirNode then
            match mkdirAll root (dst ++ [rn (pathBase src)]) 504 with
            | Except.error e => (root, Except.error ("making dst dir: " ++ e))
            | Except.ok root1 =>
              match readDir root1 src with
              | Except.error e => (root1, Except.error e)
              | Except.ok entries =>
                processEntries
                  (fun r s => CopyDir2 fuel r s (dst ++ [rn (pathBase src)]) rn td)
                  root1 src (dst ++ [rn (pathBase src)]) td entries
          else (root, Except.error (pathStr dst ++ " is not a directory"))
      else (root, Except.error (pathStr dst ++ " is not a directory"))

/-- The part of the destination that copying one directory entry of `src`
contributes (empty template data): a directory entry is copied as a whole
renamed subtree, a file entry as a single file under its own name. -/
def entryImageFile (root : Node) (src : Path) (rn : RenameFn) (e : DirEntry)
    (q : Path) (c : String) : Prop :=
  (e.isDir = true ∧ ∃ ds f, q = rn e.name :: (ds.map rn ++ [f]) ∧
    contentAt root (src ++ (e.name :: (ds ++ [f]))) = some c)
  ∨ (e.isDir = false ∧ q = [e.name] ∧ contentAt root (src ++ [e.name]) = some c)

/-- Directory analogue of `entryImageFile`. -/
def entryImageDir (root : Node) (src : Path) (rn : RenameFn) (e : DirEntry)
    (q : Path) : Prop :=
  e.isDir = true ∧ ∃ ds, q = rn e.name :: ds.map rn ∧
    isDirAt root (src ++ (e.name :: ds)) = true

/-! ## Concrete filesystems used by the closed theorems -/

/-- Fixture: `src` is a regular file, `dst` a directory. -/
def rootSrcFile : Node :=
  Node.dir [("f", Node.file "x" 420), ("d", Node.dir [] 488)] 488

/-- Fixture: a source file whose name uses the spec's `\x7b\x7bbar\x7d\x7d`
placeholder spelling (no leading dot). -/
def rootSpecName : Node :=
  Node.dir
    [("s", Node.dir
        [("foo-\x7b\x7bbar\x7d\x7d.template",
          Node.file "hello \x7b\x7bbar\x7d\x7d" 420)] 488),
     ("out", Node.dir [] 488)] 488

/-- Fixture: the same source with Go's actual `\x7b\x7b.bar\x7d\x7d` field
syntax. -/
def rootGoName : Node :=
  Node.dir
    [("s", Node.dir
        [("foo-\x7b\x7b.bar\x7d\x7d.template",
          Node.file "hello \x7b\x7b.bar\x7d\x7d" 420)] 488),
     ("out", Node.dir [] 488)] 488

/-- Fixture: a source file whose content references a key missing from the
template data. -/
def rootMissingKey : Node :=
  Node.dir
    [("s", Node.dir [("f", Node.file "a\x7b\x7b.nokey\x7d\x7db" 420)] 488),
     ("out", Node.dir [] 488)] 488

/-- Fixture: a two-level source tree and an empty destination. -/
def rootTwoLevel : Node :=
  Node.dir
    [("s", Node.dir [("d2", Node.dir [("g", Node.file "yo" 420)] 488),
                     ("f", Node.file "hi" 420)] 488),
     ("out", Node.dir [] 488)] 488

/-- Fixture: template data whose value contains HTML-special characters,
referenced from a file's content and from a file's name. -/
def rootHtml : Node :=
  Node.dir
    [("s", Node.dir
        [("f", Node.file "\x7b\x7b.bar\x7d\x7d" 420),
         ("n-\x7b\x7b.bar\x7d\x7d.template", Node.file "x" 420)] 488),
     ("out", Node.dir [] 488)] 488

/-- Fixture: the destination already holds a file at a computed target
path. -/
def rootCollide : Node :=
  Node.dir
    [("s", Node.dir [("f", Node.file "new" 420)] 488),
     ("out", Node.dir [("s", Node.dir [("f", Node.file "old" 416)] 488)] 488)] 488

/-- Fixture: the destination subdirectory already exists (the state right
after `CopyDir2`'s mkdir step), with a source file whose content references
a missing key. -/
def rootMissingKeyMid : Node :=
  Node.dir
    [("s", Node.dir [("f", Node.file "a\x7b\x7b.nokey\x7d\x7db" 420)] 488),
     ("out", Node.dir [("s", Node.dir [] 504)] 488)] 488

/-- Two paths neither of which is a prefix of the other: the subtrees they
root are disjoint. -/
def Incomp (p q : Path) : Prop := ¬ p <+: q ∧ ¬ q <+: p

/-- Relation between a state and a later state of one run: every file now
present either was created with mode 0660 = 432 or already existed with its
mode, and every directory either was created with mode 0770 = 504 or
already existed with its mode. -/
def modesOK (r r' : Node) : Prop :=
  (∀ p c m, Node.find? r' p = some (Node.file c m) →
    m = 432 ∨ ∃ c0, Node.find? r p = some (Node.file c0 m))
  ∧ (∀ p es m, Node.find? r' p = some (Node.dir es m) →
    m = 504 ∨ ∃ es0, Node.find? r p = some (Node.dir es0 m))


/-! ## Basic lemmas about the list and path primitives -/

theorem lookup_setEntry_self (es : List (String × Node)) (k : String) (n : Node) :
    lookupEntry (setEntry es k n) k = some n := by
  induction es with
  | nil => simp [setEntry, lookupEntry]
  | cons kv rest ih =>
    obtain ⟨k0, v0⟩ := kv
    by_cases h : k0 = k
    · simp [setEntry, h, lookupEntry]
    · simp [setEntry, h, lookupEntry, ih]

theorem lookup_setEntry_ne (es : List (String × Node)) (k k2 : String) (n : Node)
    (h : k2 ≠ k) : lookupEntry (setEntry es k n) k2 = lookupEntry es k2 := by
  induction es with
  | nil => simp [setEntry, lookupEntry, Ne.symm h]
  | cons kv rest ih =>
    obtain ⟨k0, v0⟩ := kv
    by_cases h0 : k0 = k
    · subst h0
      simp [setEntry, lookupEntry, Ne.symm h]
    · by_cases h2 : k0 = k2 <;> simp [setEntry, h0, lookupEntry, h2, h, ih]

theorem setEntry_lookup_self (es : List (String × Node)) (k : String) (v : Node)
    (h : lookupEntry es k = some v) : setEntry es k v = es := by
  induction es with
  | nil => simp [lookupEntry] at h
  | cons kv rest ih =>
    obtain ⟨k0, v0⟩ := kv
    by_cases h0 : k0 = k
    · subst h0
      simp [lookupEntry] at h
      simp [setEntry, h]
    · simp [lookupEntry, h0] at h
      simp [setEntry, h0, ih h]

theorem find?_append (r : Node) (p q : Path) :
    Node.find? r (p ++ q) = (Node.find? r p).bind (fun n => Node.find? n q) := by
  induction p generalizing r with
  | nil => simp [Node.find?]
  | cons n p' ih =>
    cases r with
    | file c m => simp [Node.find?]
    | dir es m =>
      simp only [List.cons_append, Node.find?]
      cases lookupEntry es n with
      | none => simp
      | some child => simpa using ih child

theorem find?_ext_none (r : Node) (p q : Path) (h : Node.find? r p = none) :
    Node.find? r (p ++ q) = none := by
  rw [find?_append, h]; rfl

theorem incomp_extend_right {p tgt : Path} (x : String) (h : Incomp p tgt) :
    Incomp p (tgt ++ [x]) := by
  obtain ⟨h1, h2⟩ := h
  constructor
  · intro hp
    rcases List.prefix_concat_iff.mp hp with he | hp2
    · exact h2 (he ▸ (tgt.prefix_append [x]))
    · exact h1 hp2
  · intro hp
    exact h2 ((tgt.prefix_append [x]).trans hp)

theorem incomp_src_ext {src tgt : Path} (q : Path) (h : Incomp src tgt) :
    Incomp (src ++ q) tgt := by
  obtain ⟨h1, h2⟩ := h
  constructor
  · intro hp
    exact h1 ((src.prefix_append q).trans hp)
  · intro hp
    rcases List.prefix_or_prefix_of_prefix hp (src.prefix_append q) with hc | hc
    · exact h2 hc
    · exact h1 hc

theorem incomp_children {src tgt : Path} (a b : String) (h : Incomp src tgt) :
    Incomp (src ++ [a]) (tgt ++ [b]) := by
  have h1 := incomp_extend_right b h
  have h2 := incomp_src_ext [a] h1
  exact h2

/-! ## Characterization of `writeFileAt` -/

theorem writeFileAt_base_inv (es : List (String × Node)) (m0 : Nat) (n : String)
    (c : String) (m : Nat) (r' : Node)
    (h : writeFileAt (Node.dir es m0) [n] c m = some r') :
    isDirAt (Node.dir es m0) [n] = false ∧
      r' = Node.dir (setEntry es n (Node.file c m)) m0 := by
  cases hl : lookupEntry es n with
  | none =>
    simp only [writeFileAt, hl] at h
    injection h with h
    refine ⟨?_, h.symm⟩
    unfold isDirAt
    simp [Node.find?, hl]
  | some child =>
    cases child with
    | file c0 mm =>
      simp only [writeFileAt, hl] at h
      injection h with h
      refine ⟨?_, h.symm⟩
      unfold isDirAt
      simp [Node.find?, hl]
    | dir es1 m1 =>
      simp only [writeFileAt, hl] at h
      exact Option.noConfusion h

theorem writeFileAt_cons_inv (es : List (String × Node)) (m0 : Nat)
    (n n2 : String) (rest : Path) (c : String) (m : Nat) (r' : Node)
    (h : writeFileAt (Node.dir es m0) (n :: n2 :: rest) c m = some r') :
    ∃ child child', lookupEntry es n = some child ∧
      writeFileAt child (n2 :: rest) c m = some child' ∧
      r' = Node.dir (setEntry es n child') m0 := by
  cases hl : lookupEntry es n with
  | none =>
    simp only [writeFileAt, hl] at h
    exact Option.noConfusion h
  | some child =>
    simp only [writeFileAt, hl] at h
    cases hw : writeFileAt child (n2 :: rest) c m with
    | none => rw [hw] at h; exact Option.noConfusion h
    | some child' =>
      rw [hw] at h
      simp only [Option.map] at h
      injection h with h
      exact ⟨child, child', rfl, hw, h.symm⟩

theorem writeFileAt_dir_shape (P : Path) :
    ∀ (r r' : Node) (c : String) (m : Nat),
      writeFileAt r P c m = some r' →
      ∃ es m0 es', r = Node.dir es m0 ∧ r' = Node.dir es' m0 := by
  intro r r' c m h
  cases P with
  | nil => simp [writeFileAt] at h
  | cons n P' =>
    cases r with
    | file _ _ => simp [writeFileAt] at h
    | dir es m0 =>
      cases P' with
      | nil =>
        obtain ⟨_, rfl⟩ := writeFileAt_base_inv es m0 n c m r' h
        exact ⟨es, m0, _, rfl, rfl⟩
      | cons n2 rest =>
        obtain ⟨child, child', _, _, rfl⟩ := writeFileAt_cons_inv es m0 n n2 rest c m r' h
        exact ⟨es, m0, _, rfl, rfl⟩

theorem writeFileAt_find_self (P : Path) :
    ∀ (r r' : Node) (c : String) (m : Nat),
      writeFileAt r P c m = some r' → Node.find? r' P = some (Node.file c m) := by
  induction P with
  | nil => intro r r' c m h; simp [writeFileAt] at h
  | cons n P' ih =>
    intro r r' c m h
    cases r with
    | file _ _ => simp [writeFileAt] at h
    | dir es m0 =>
      cases P' with
      | nil =>
        obtain ⟨_, rfl⟩ := writeFileAt_base_inv es m0 n c m r' h
        simp [Node.find?, lookup_setEntry_self]
      | cons n2 rest =>
        obtain ⟨child, child', hl, hw, rfl⟩ := writeFileAt_cons_inv es m0 n n2 rest c m r' h
        simp only [Node.find?, lookup_setEntry_self]
        exact ih child child' c m hw

theorem writeFileAt_find_other (P : Path) :
    ∀ (r r' : Node) (c : String) (m : Nat),
      writeFileAt r P c m = some r' →
      ∀ q, ¬ P <+: q → ¬ q <+: P → Node.find? r' q = Node.find? r q := by
  induction P with
  | nil => intro r r' c m h; simp [writeFileAt] at h
  | cons n P' ih =>
    intro r r' c m h q hPq hqP
    cases r with
    | file _ _ => simp [writeFileAt] at h
    | dir es m0 =>
      cases q with
      | nil => exact absurd List.nil_prefix hqP
      | cons k q' =>
        by_cases hk : k = n
        · subst hk
          have hP'q : ¬ P' <+: q' := fun hx => hPq (List.cons_prefix_cons.mpr ⟨rfl, hx⟩)
          have hq'P : ¬ q' <+: P' := fun hx => hqP (List.cons_prefix_cons.mpr ⟨rfl, hx⟩)
          cases P' with
          | nil => exact absurd List.nil_prefix hP'q
          | cons n2 rest =>
            obtain ⟨child, child', hl, hw, rfl⟩ :=
              writeFileAt_cons_inv es m0 k n2 rest c m r' h
            simp only [Node.find?, lookup_setEntry_self, hl]
            exact ih child child' c m hw q' hP'q hq'P
        · cases P' with
          | nil =>
            obtain ⟨_, rfl⟩ := writeFileAt_base_inv es m0 n c m r' h
            simp only [Node.find?, lookup_setEntry_ne es n k _ hk]
          | cons n2 rest =>
            obtain ⟨child, child', hl, hw, rfl⟩ :=
              writeFileAt_cons_inv es m0 n n2 rest c m r' h
            simp only [Node.find?, lookup_setEntry_ne es n k _ hk]

theorem writeFileAt_pre_not_dir (P : Path) :
    ∀ (r r' : Node) (c : String) (m : Nat),
      writeFileAt r P c m = some r' → isDirAt r P = false := by
  induction P with
  | nil => intro r r' c m h; simp [writeFileAt] at h
  | cons n P' ih =>
    intro r r' c m h
    cases r with
    | file _ _ => simp [writeFileAt] at h
    | dir es m0 =>
      cases P' with
      | nil =>
        obtain ⟨hnd, rfl⟩ := writeFileAt_base_inv es m0 n c m r' h
        exact hnd
      | cons n2 rest =>
        obtain ⟨child, child', hl, hw, rfl⟩ := writeFileAt_cons_inv es m0 n n2 rest c m r' h
        have := ih child child' c m hw
        unfold isDirAt at this ⊢
        simp only [Node.find?, hl]
        exact this

theorem writeFileAt_strict_prefix_dir (P : Path) :
    ∀ (r r' : Node) (c : String) (m : Nat),
      writeFileAt r P c m = some r' →
      ∀ q, q <+: P → q ≠ P → isDirAt r q = true ∧ isDirAt r' q = true := by
  induction P with
  | nil => intro r r' c m h; simp [writeFileAt] at h
  | cons n P' ih =>
    intro r r' c m h q hq hqne
    obtain ⟨es, m0, es', rfl, hr'⟩ := writeFileAt_dir_shape (n :: P') _ _ c m h
    cases q with
    | nil =>
      subst hr'
      exact ⟨rfl, rfl⟩
    | cons k q' =>
      obtain ⟨hkn, hq'⟩ := List.cons_prefix_cons.mp hq
      subst hkn
      have hq'ne : q' ≠ P' := fun hx => hqne (by rw [hx])
      cases P' with
      | nil => exact absurd (List.prefix_nil.mp hq') hq'ne
      | cons n2 rest =>
        obtain ⟨child, child', hl, hw, hr2⟩ := writeFileAt_cons_inv es m0 k n2 rest c m _ h
        have := ih child child' c m hw q' hq' hq'ne
        constructor
        · unfold isDirAt at this ⊢
          simp only [Node.find?, hl]
          exact this.1
        · rw [hr2]
          unfold isDirAt at this ⊢
          simp only [Node.find?, lookup_setEntry_self]
          exact this.2

theorem writeFileAt_find_ext (P : Path) (r r' : Node) (c : String) (m : Nat)
    (h : writeFileAt r P c m = some r') (t : Path) (ht : t ≠ []) :
    Node.find? r' (P ++ t) = none := by
  rw [find?_append, writeFileAt_find_self P r r' c m h]
  cases t with
  | nil => exact absurd rfl ht
  | cons x rest => rfl

theorem prefix_trichotomy (P q : Path) :
    q = P ∨ (P <+: q ∧ q ≠ P) ∨ (q <+: P ∧ q ≠ P) ∨ Incomp q P := by
  by_cases h1 : q = P
  · exact Or.inl h1
  · by_cases h2 : P <+: q
    · exact Or.inr (Or.inl ⟨h2, h1⟩)
    · by_cases h3 : q <+: P
      · exact Or.inr (Or.inr (Or.inl ⟨h3, h1⟩))
      · exact Or.inr (Or.inr (Or.inr ⟨h3, h2⟩))

theorem find?_through_not_dir (r : Node) (P t : Path)
    (hnd : isDirAt r P = false) (ht : t ≠ []) : Node.find? r (P ++ t) = none := by
  rw [find?_append]
  unfold isDirAt at hnd
  cases hf : Node.find? r P with
  | none => rfl
  | some nd =>
    cases nd with
    | file _ _ =>
      cases t with
      | nil => exact absurd rfl ht
      | cons x rest => rfl
    | dir _ _ => rw [hf] at hnd; simp at hnd

theorem writeFileAt_isDirAt (P : Path) (r r' : Node) (c : String) (m : Nat)
    (h : writeFileAt r P c m = some r') :
    ∀ q, isDirAt r' q = isDirAt r q := by
  intro q
  rcases prefix_trichotomy P q with hq | ⟨hq, hne⟩ | ⟨hq, hne⟩ | ⟨hq1, hq2⟩
  · rw [hq, writeFileAt_pre_not_dir P r r' c m h]
    unfold isDirAt
    rw [writeFileAt_find_self P r r' c m h]
  · obtain ⟨t, rfl⟩ := hq
    have ht : t ≠ [] := by rintro rfl; simp at hne
    unfold isDirAt
    rw [writeFileAt_find_ext P r r' c m h t ht,
      find?_through_not_dir r P t (writeFileAt_pre_not_dir P r r' c m h) ht]
  · have := writeFileAt_strict_prefix_dir P r r' c m h q hq hne
    rw [this.1, this.2]
  · unfold isDirAt
    rw [writeFileAt_find_other P r r' c m h q hq2 hq1]

theorem writeFileAt_contentAt_other (P : Path) (r r' : Node) (c : String) (m : Nat)
    (h : writeFileAt r P c m = some r') :
    ∀ q, q ≠ P → contentAt r' q = contentAt r q := by
  intro q hne
  rcases prefix_trichotomy P q with hq | ⟨hq, hne2⟩ | ⟨hq, hne2⟩ | ⟨hq1, hq2⟩
  · exact absurd hq hne
  · obtain ⟨t, rfl⟩ := hq
    have ht : t ≠ [] := by rintro rfl; simp at hne2
    unfold contentAt
    rw [writeFileAt_find_ext P r r' c m h t ht,
      find?_through_not_dir r P t (writeFileAt_pre_not_dir P r r' c m h) ht]
  · have := writeFileAt_strict_prefix_dir P r r' c m h q hq hne2
    unfold contentAt
    unfold isDirAt at this
    obtain ⟨h1, h2⟩ := this
    cases hf1 : Node.find? r q with
    | none => rw [hf1] at h1; simp at h1
    | some nd1 =>
      cases hf2 : Node.find? r' q with
      | none => rw [hf2] at h2; simp at h2
      | some nd2 =>
        rw [hf1] at h1; rw [hf2] at h2
        cases nd1 with
        | file _ _ => simp at h1
        | dir _ _ =>
          cases nd2 with
          | file _ _ => simp at h2
          | dir _ _ => rfl
  · unfold contentAt
    rw [writeFileAt_find_other P r r' c m h q hq2 hq1]

theorem writeFileAt_contentAt_self (P : Path) (r r' : Node) (c : String) (m : Nat)
    (h : writeFileAt r P c m = some r') : contentAt r' P = some c := by
  unfold contentAt
  rw [writeFileAt_find_self P r r' c m h]

theorem writeFileAt_again (P : Path) :
    ∀ (r r' : Node) (c : String) (m : Nat),
      writeFileAt r P c m = some r' →
      ∀ c2 m2, ∃ r2, writeFileAt r' P c2 m2 = some r2 := by
  induction P with
  | nil => intro r r' c m h; simp [writeFileAt] at h
  | cons n P' ih =>
    intro r r' c m h c2 m2
    cases r with
    | file _ _ => simp [writeFileAt] at h
    | dir es m0 =>
      cases P' with
      | nil =>
        obtain ⟨_, rfl⟩ := writeFileAt_base_inv es m0 n c m r' h
        refine ⟨Node.dir (setEntry (setEntry es n (Node.file c m)) n (Node.file c2 m2)) m0, ?_⟩
        simp only [writeFileAt, lookup_setEntry_self]
      | cons n2 rest =>
        obtain ⟨child, child', hl, hw, rfl⟩ := writeFileAt_cons_inv es m0 n n2 rest c m r' h
        obtain ⟨r2, hr2⟩ := ih child child' c m hw c2 m2
        refine ⟨Node.dir (setEntry (setEntry es n child') n r2) m0, ?_⟩
        simp only [writeFileAt, lookup_setEntry_self, hr2, Option.map]

/-! ## Characterization of `mkdirAll` -/

theorem find?_cons_lookup (es : List (String × Node)) (m0 : Nat) (k : String)
    (q : Path) (child : Node) (hl : lookupEntry es k = some child) :
    Node.find? (Node.dir es m0) (k :: q) = Node.find? child q := by
  simp [Node.find?, hl]

theorem find?_cons_none (es : List (String × Node)) (m0 : Nat) (k : String)
    (q : Path) (hl : lookupEntry es k = none) :
    Node.find? (Node.dir es m0) (k :: q) = none := by
  simp [Node.find?, hl]

theorem find?_cons_eq_of_lookup_eq (es1 es2 : List (String × Node))
    (m1 m2 : Nat) (k : String) (q : Path)
    (h : lookupEntry es1 k = lookupEntry es2 k) :
    Node.find? (Node.dir es1 m1) (k :: q) = Node.find? (Node.dir es2 m2) (k :: q) := by
  cases hl : lookupEntry es2 k with
  | none => rw [find?_cons_none es1 m1 k q (h.trans hl), find?_cons_none es2 m2 k q hl]
  | some child =>
    rw [find?_cons_lookup es1 m1 k q child (h.trans hl),
      find?_cons_lookup es2 m2 k q child hl]

theorem isDirAt_cons_lookup (es : List (String × Node)) (m0 : Nat) (k : String)
    (q : Path) (child : Node) (hl : lookupEntry es k = some child) :
    isDirAt (Node.dir es m0) (k :: q) = isDirAt child q := by
  unfold isDirAt
  rw [find?_cons_lookup es m0 k q child hl]

theorem isDirAt_cons_none (es : List (String × Node)) (m0 : Nat) (k : String)
    (q : Path) (hl : lookupEntry es k = none) :
    isDirAt (Node.dir es m0) (k :: q) = false := by
  unfold isDirAt
  rw [find?_cons_none es m0 k q hl]

theorem isDirAt_cons_eq_of_lookup_eq (es1 es2 : List (String × Node))
    (m1 m2 : Nat) (k : String) (q : Path)
    (h : lookupEntry es1 k = lookupEntry es2 k) :
    isDirAt (Node.dir es1 m1) (k :: q) = isDirAt (Node.dir es2 m2) (k :: q) := by
  unfold isDirAt
  rw [find?_cons_eq_of_lookup_eq es1 es2 m1 m2 k q h]

theorem isDirAt_empty_dir (perm : Nat) (q : Path) :
    isDirAt (Node.dir [] perm) q = true ↔ q = [] := by
  cases q with
  | nil => simp [isDirAt, Node.find?]
  | cons x xs =>
    rw [isDirAt_cons_none [] perm x xs rfl]
    simp

theorem find?_empty_dir (perm : Nat) (x : String) (xs : Path) :
    Node.find? (Node.dir [] perm) (x :: xs) = none := by
  simp [Node.find?, lookupEntry]

theorem mkdirAll_cons_inv (es : List (String × Node)) (m0 : Nat) (n : String)
    (rest : Path) (perm : Nat) (r' : Node)
    (h : mkdirAll (Node.dir es m0) (n :: rest) perm = Except.ok r') :
    ∃ base child', (lookupEntry es n = some base ∨
        (lookupEntry es n = none ∧ base = Node.dir [] perm)) ∧
      mkdirAll base rest perm = Except.ok child' ∧
      r' = Node.dir (setEntry es n child') m0 := by
  cases hl : lookupEntry es n with
  | some base =>
    simp only [mkdirAll, hl] at h
    cases hm : mkdirAll base rest perm with
    | error e => rw [hm] at h; simp only [Except.map] at h; exact Except.noConfusion h
    | ok child' =>
      rw [hm] at h
      simp only [Except.map] at h
      injection h with h
      exact ⟨base, child', Or.inl rfl, hm, h.symm⟩
  | none =>
    simp only [mkdirAll, hl] at h
    cases hm : mkdirAll (Node.dir [] perm) rest perm with
    | error e => rw [hm] at h; simp only [Except.map] at h; exact Except.noConfusion h
    | ok child' =>
      rw [hm] at h
      simp only [Except.map] at h
      injection h with h
      exact ⟨Node.dir [] perm, child', Or.inr ⟨rfl, rfl⟩, hm, h.symm⟩

theorem mkdirAll_dir_shape (P : Path) :
    ∀ (es : List (String × Node)) (m0 perm : Nat) (r' : Node),
      mkdirAll (Node.dir es m0) P perm = Except.ok r' →
      ∃ es', r' = Node.dir es' m0 := by
  intro es m0 perm r' h
  cases P with
  | nil =>
    simp only [mkdirAll] at h
    injection h with h
    exact ⟨es, h.symm⟩
  | cons n rest =>
    obtain ⟨base, child', _, _, rfl⟩ := mkdirAll_cons_inv es m0 n rest perm r' h
    exact ⟨_, rfl⟩

theorem mkdirAll_nil_inv (es : List (String × Node)) (m0 perm : Nat) (r' : Node)
    (h : mkdirAll (Node.dir es m0) [] perm = Except.ok r') : r' = Node.dir es m0 := by
  simp only [mkdirAll] at h
  injection h with h
  exact h.symm

theorem mkdirAll_not_file (P : Path) :
    ∀ (c : String) (m perm : Nat) (r' : Node),
      mkdirAll (Node.file c m) P perm ≠ Except.ok r' := by
  intro c m perm r' h
  simp only [mkdirAll] at h
  exact Except.noConfusion h

theorem mk_find_other (P : Path) :
    ∀ (r r' : Node) (perm : Nat),
      mkdirAll r P perm = Except.ok r' →
      ∀ q, ¬ q <+: P → ¬ P <+: q → Node.find? r' q = Node.find? r q := by
  induction P with
  | nil =>
    intro r r' perm h q _ hPq
    exact absurd List.nil_prefix hPq
  | cons n rest ih =>
    intro r r' perm h q hqP hPq
    cases r with
    | file c0 mm0 => exact absurd h (mkdirAll_not_file _ _ _ _ _)
    | dir es m0 =>
      obtain ⟨base, child', hbase, hm, rfl⟩ := mkdirAll_cons_inv es m0 n rest perm r' h
      cases q with
      | nil => exact absurd List.nil_prefix hqP
      | cons k q' =>
        by_cases hk : k = n
        · subst hk
          have h1 : ¬ q' <+: rest := fun hx => hqP (List.cons_prefix_cons.mpr ⟨rfl, hx⟩)
          have h2 : ¬ rest <+: q' := fun hx => hPq (List.cons_prefix_cons.mpr ⟨rfl, hx⟩)
          have hq'ne : q' ≠ [] := by
            rintro rfl
            exact h1 List.nil_prefix
          rcases hbase with hl | ⟨hl, rfl⟩
          · simp only [Node.find?, lookup_setEntry_self, hl]
            exact ih base child' perm hm q' h1 h2
          · simp only [Node.find?, lookup_setEntry_self, hl]
            rw [ih _ child' perm hm q' h1 h2]
            cases q' with
            | nil => exact absurd rfl hq'ne
            | cons x xs => rw [find?_empty_dir]
        · rcases hbase with hl | ⟨hl, rfl⟩ <;>
            simp only [Node.find?, lookup_setEntry_ne es n k _ hk]

theorem mk_files (P : Path) :
    ∀ (r r' : Node) (perm : Nat),
      mkdirAll r P perm = Except.ok r' →
      ∀ q c mm, (Node.find? r' q = some (Node.file c mm) ↔
        Node.find? r q = some (Node.file c mm)) := by
  induction P with
  | nil =>
    intro r r' perm h q c mm
    cases r with
    | file c0 mm0 => exact absurd h (mkdirAll_not_file _ _ _ _ _)
    | dir es m0 => rw [mkdirAll_nil_inv es m0 perm r' h]
  | cons n rest ih =>
    intro r r' perm h q c mm
    cases r with
    | file c0 mm0 => exact absurd h (mkdirAll_not_file _ _ _ _ _)
    | dir es m0 =>
      obtain ⟨base, child', hbase, hm, rfl⟩ := mkdirAll_cons_inv es m0 n rest perm r' h
      cases q with
      | nil =>
        simp only [Node.find?]
        constructor <;> intro hx <;> simp at hx
      | cons k q' =>
        by_cases hk : k = n
        · subst hk
          rcases hbase with hl | ⟨hl, rfl⟩
          · simp only [Node.find?, lookup_setEntry_self, hl]
            exact ih base child' perm hm q' c mm
          · simp only [Node.find?, lookup_setEntry_self, hl]
            rw [ih _ child' perm hm q' c mm]
            constructor
            · intro hx
              cases q' with
              | nil => simp [Node.find?] at hx
              | cons x xs => rw [find?_empty_dir] at hx; exact Option.noConfusion hx
            · intro hx
              exact Option.noConfusion hx
        · rcases hbase with hl | ⟨hl, rfl⟩ <;>
            simp only [Node.find?, lookup_setEntry_ne es n k _ hk]

theorem mk_isDirAt (P : Path) :
    ∀ (r r' : Node) (perm : Nat),
      mkdirAll r P perm = Except.ok r' →
      ∀ q, (isDirAt r' q = true ↔ (isDirAt r q = true ∨ q <+: P)) := by
  induction P with
  | nil =>
    intro r r' perm h q
    cases r with
    | file c0 mm0 => exact absurd h (mkdirAll_not_file _ _ _ _ _)
    | dir es m0 =>
      rw [mkdirAll_nil_inv es m0 perm r' h]
      constructor
      · exact fun hx => Or.inl hx
      · intro hx
        rcases hx with hx | hx
        · exact hx
        · rw [List.prefix_nil.mp hx]; rfl
  | cons n rest ih =>
    intro r r' perm h q
    cases r with
    | file c0 mm0 => exact absurd h (mkdirAll_not_file _ _ _ _ _)
    | dir es m0 =>
      obtain ⟨base, child', hbase, hm, rfl⟩ := mkdirAll_cons_inv es m0 n rest perm r' h
      cases q with
      | nil =>
        constructor
        · intro _; exact Or.inl rfl
        · intro _; rfl
      | cons k q' =>
        have hpre : (k :: q' <+: n :: rest) ↔ (k = n ∧ q' <+: rest) :=
          List.cons_prefix_cons
        by_cases hk : k = n
        · subst hk
          rw [isDirAt_cons_lookup _ _ _ _ _ (lookup_setEntry_self es k child')]
          rcases hbase with hl | ⟨hl, rfl⟩
          · rw [isDirAt_cons_lookup es m0 k q' base hl,
              ih base child' perm hm q']
            constructor
            · intro hx
              rcases hx with hx | hx
              · exact Or.inl hx
              · exact Or.inr (hpre.mpr ⟨rfl, hx⟩)
            · intro hx
              rcases hx with hx | hx
              · exact Or.inl hx
              · exact Or.inr (hpre.mp hx).2
          · rw [isDirAt_cons_none es m0 k q' hl,
              ih (Node.dir [] perm) child' perm hm q']
            rw [isDirAt_empty_dir]
            constructor
            · intro hx
              rcases hx with hx | hx
              · subst hx; exact Or.inr (hpre.mpr ⟨rfl, List.nil_prefix⟩)
              · exact Or.inr (hpre.mpr ⟨rfl, hx⟩)
            · intro hx
              rcases hx with hx | hx
              · exact absurd hx (by simp)
              · exact Or.inr (hpre.mp hx).2
        · have hnp : ¬ (k :: q' <+: n :: rest) := fun hx => hk (hpre.mp hx).1
          rw [isDirAt_cons_eq_of_lookup_eq (setEntry es n child') es m0 m0 k q'
            (lookup_setEntry_ne es n k child' hk)]
          constructor
          · exact fun hx => Or.inl hx
          · intro hx
            rcases hx with hx | hx
            · exact hx
            · exact absurd hx hnp

theorem mk_below (P : Path) :
    ∀ (r r' : Node) (perm : Nat),
      mkdirAll r P perm = Except.ok r' →
      ∀ t, t ≠ [] → Node.find? r' (P ++ t) = Node.find? r (P ++ t) := by
  induction P with
  | nil =>
    intro r r' perm h t _
    cases r with
    | file c0 mm0 => exact absurd h (mkdirAll_not_file _ _ _ _ _)
    | dir es m0 => rw [mkdirAll_nil_inv es m0 perm r' h]
  | cons n rest ih =>
    intro r r' perm h t ht
    cases r with
    | file c0 mm0 => exact absurd h (mkdirAll_not_file _ _ _ _ _)
    | dir es m0 =>
      obtain ⟨base, child', hbase, hm, rfl⟩ := mkdirAll_cons_inv es m0 n rest perm r' h
      rcases hbase with hl | ⟨hl, rfl⟩
      · rw [List.cons_append,
          find?_cons_lookup _ _ _ _ _ (lookup_setEntry_self es n child'),
          find?_cons_lookup es m0 n _ base hl]
        exact ih base child' perm hm t ht
      · rw [List.cons_append,
          find?_cons_lookup _ _ _ _ _ (lookup_setEntry_self es n child'),
          find?_cons_none es m0 n _ hl]
        rw [ih _ child' perm hm t ht]
        cases hrt : rest ++ t with
        | nil =>
          rcases List.append_eq_nil.mp hrt with ⟨-, rfl⟩
          exact absurd rfl ht
        | cons x xs => exact find?_empty_dir perm x xs

theorem mk_dirs_shape (P : Path) :
    ∀ (r r' : Node) (perm : Nat),
      mkdirAll r P perm = Except.ok r' →
      ∀ q es0 mq, Node.find? r q = some (Node.dir es0 mq) →
        ∃ es2, Node.find? r' q = some (Node.dir es2 mq) := by
  induction P with
  | nil =>
    intro r r' perm h q es0 mq hq
    cases r with
    | file c0 mm0 => exact absurd h (mkdirAll_not_file _ _ _ _ _)
    | dir es m0 =>
      rw [mkdirAll_nil_inv es m0 perm r' h]
      exact ⟨es0, hq⟩
  | cons n rest ih =>
    intro r r' perm h q es0 mq hq
    cases r with
    | file c0 mm0 => exact absurd h (mkdirAll_not_file _ _ _ _ _)
    | dir es m0 =>
      obtain ⟨base, child', hbase, hm, rfl⟩ := mkdirAll_cons_inv es m0 n rest perm r' h
      cases q with
      | nil =>
        simp only [Node.find?] at hq ⊢
        injection hq with hq
        injection hq with hq1 hq2
        exact ⟨setEntry es n child', by rw [hq2]⟩
      | cons k q' =>
        by_cases hk : k = n
        · subst hk
          rcases hbase with hl | ⟨hl, rfl⟩
          · rw [find?_cons_lookup es m0 k q' base hl] at hq
            obtain ⟨es2, hes2⟩ := ih base child' perm hm q' es0 mq hq
            rw [find?_cons_lookup _ _ _ _ _ (lookup_setEntry_self es k child')]
            exact ⟨es2, hes2⟩
          · rw [find?_cons_none es m0 k q' hl] at hq
            exact Option.noConfusion hq
        · rw [find?_cons_eq_of_lookup_eq es (setEntry es n child') m0 m0 k q'
            (lookup_setEntry_ne es n k child' hk).symm] at hq
          exact ⟨es0, hq⟩

theorem mk_mode (P : Path) :
    ∀ (r r' : Node) (perm : Nat),
      mkdirAll r P perm = Except.ok r' →
      ∀ q, isDirAt r q = false →
        ∀ es2 mm, Node.find? r' q = some (Node.dir es2 mm) → mm = perm := by
  induction P with
  | nil =>
    intro r r' perm h q hq es2 mm hfind
    cases r with
    | file c0 mm0 => exact absurd h (mkdirAll_not_file _ _ _ _ _)
    | dir es m0 =>
      rw [mkdirAll_nil_inv es m0 perm r' h] at hfind
      unfold isDirAt at hq
      rw [hfind] at hq
      simp at hq
  | cons n rest ih =>
    intro r r' perm h q hq es2 mm hfind
    cases r with
    | file c0 mm0 => exact absurd h (mkdirAll_not_file _ _ _ _ _)
    | dir es m0 =>
      obtain ⟨base, child', hbase, hm, rfl⟩ := mkdirAll_cons_inv es m0 n rest perm r' h
      cases q with
      | nil => simp [isDirAt, Node.find?] at hq
      | cons k q' =>
        by_cases hk : k = n
        · subst hk
          rw [find?_cons_lookup _ _ _ _ _ (lookup_setEntry_self es k child')] at hfind
          rcases hbase with hl | ⟨hl, rfl⟩
          · rw [isDirAt_cons_lookup es m0 k q' base hl] at hq
            exact ih base child' perm hm q' hq es2 mm hfind
          · cases q' with
            | nil =>
              simp only [Node.find?] at hfind
              injection hfind with hfind
              obtain ⟨es', hsh⟩ := mkdirAll_dir_shape rest [] perm perm child' hm
              rw [hsh] at hfind
              injection hfind with h1 h2
              rw [h2]
            | cons x xs =>
              exact ih (Node.dir [] perm) child' perm hm (x :: xs)
                (isDirAt_cons_none [] perm x xs rfl) es2 mm hfind
        · rw [find?_cons_eq_of_lookup_eq (setEntry es n child') es m0 m0 k q'
            (lookup_setEntry_ne es n k child' hk)] at hfind
          unfold isDirAt at hq
          rw [hfind] at hq
          simp at hq

/-! ## Creation modes (`modesOK`) -/

theorem modesOK_refl (r : Node) : modesOK r r :=
  ⟨fun _ c m h => Or.inr ⟨c, h⟩, fun _ es m h => Or.inr ⟨es, h⟩⟩

theorem modesOK_trans {a b c : Node} (h1 : modesOK a b) (h2 : modesOK b c) :
    modesOK a c := by
  constructor
  · intro p cc m h
    rcases h2.1 p cc m h with h | ⟨c0, h⟩
    · exact Or.inl h
    · rcases h1.1 p c0 m h with h | ⟨c1, h⟩
      · exact Or.inl h
      · exact Or.inr ⟨c1, h⟩
  · intro p es m h
    rcases h2.2 p es m h with h | ⟨es0, h⟩
    · exact Or.inl h
    · rcases h1.2 p es0 m h with h | ⟨es1, h⟩
      · exact Or.inl h
      · exact Or.inr ⟨es1, h⟩

theorem mk_modes (P : Path) (r r' : Node)
    (h : mkdirAll r P 504 = Except.ok r') : modesOK r r' := by
  constructor
  · intro p c m hf
    exact Or.inr ⟨c, (mk_files P r r' 504 h p c m).mp hf⟩
  · intro p es m hf
    by_cases hd : isDirAt r p = true
    · unfold isDirAt at hd
      cases hfr : Node.find? r p with
      | none => rw [hfr] at hd; simp at hd
      | some nd =>
        cases nd with
        | file _ _ => rw [hfr] at hd; simp at hd
        | dir es0 mq =>
          obtain ⟨es2, hes2⟩ := mk_dirs_shape P r r' 504 h p es0 mq hfr
          rw [hf] at hes2
          injection hes2 with hes2
          injection hes2 with h1 h2
          subst h2
          exact Or.inr ⟨es0, rfl⟩
    · rw [Bool.not_eq_true] at hd
      exact Or.inl (mk_mode P r r' 504 h p hd es m hf)

theorem writeFileAt_dirs_shape (P : Path) :
    ∀ (r r' : Node) (c : String) (m : Nat),
      writeFileAt r P c m = some r' →
      ∀ q es2 mq, Node.find? r' q = some (Node.dir es2 mq) →
        ∃ es0, Node.find? r q = some (Node.dir es0 mq) := by
  induction P with
  | nil => intro r r' c m h; simp [writeFileAt] at h
  | cons n P' ih =>
    intro r r' c m h q es2 mq hq
    cases r with
    | file _ _ => simp [writeFileAt] at h
    | dir es m0 =>
      cases P' with
      | nil =>
        obtain ⟨hnd, rfl⟩ := writeFileAt_base_inv es m0 n c m r' h
        cases q with
        | nil =>
          simp only [Node.find?] at hq ⊢
          injection hq with hq
          injection hq with h1 h2
          exact ⟨es, by rw [h2]⟩
        | cons k q' =>
          by_cases hk : k = n
          · subst hk
            rw [find?_cons_lookup _ _ _ _ _ (lookup_setEntry_self es k _)] at hq
            cases q' with
            | nil =>
              simp only [Node.find?] at hq
              exact absurd hq (by simp)
            | cons x xs => simp [Node.find?] at hq
          · rw [find?_cons_eq_of_lookup_eq (setEntry es n (Node.file c m)) es m0 m0 k q'
              (lookup_setEntry_ne es n k _ hk)] at hq
            exact ⟨es2, hq⟩
      | cons n2 rest =>
        obtain ⟨child, child', hl, hw, rfl⟩ := writeFileAt_cons_inv es m0 n n2 rest c m r' h
        cases q with
        | nil =>
          simp only [Node.find?] at hq ⊢
          injection hq with hq
          injection hq with h1 h2
          exact ⟨es, by rw [h2]⟩
        | cons k q' =>
          by_cases hk : k = n
          · subst hk
            rw [find?_cons_lookup _ _ _ _ _ (lookup_setEntry_self es k child')] at hq
            obtain ⟨es0, hes0⟩ := ih child child' c m hw q' es2 mq hq
            rw [find?_cons_lookup es m0 k q' child hl]
            exact ⟨es0, hes0⟩
          · rw [find?_cons_eq_of_lookup_eq (setEntry es n child') es m0 m0 k q'
              (lookup_setEntry_ne es n k child' hk)] at hq
            exact ⟨es2, hq⟩

theorem writeFileAt_modes (P : Path) (r r' : Node) (c : String)
    (h : writeFileAt r P c 432 = some r') : modesOK r r' := by
  constructor
  · intro p c2 mm hf
    rcases prefix_trichotomy P p with hq | ⟨hq, hne⟩ | ⟨hq, hne⟩ | ⟨hq1, hq2⟩
    · rw [hq, writeFileAt_find_self P r r' c 432 h] at hf
      injection hf with hf
      injection hf with h1 h2
      exact Or.inl h2.symm
    · obtain ⟨t, rfl⟩ := hq
      have ht : t ≠ [] := by rintro rfl; simp at hne
      rw [writeFileAt_find_ext P r r' c 432 h t ht] at hf
      exact Option.noConfusion hf
    · have := (writeFileAt_strict_prefix_dir P r r' c 432 h p hq hne).2
      unfold isDirAt at this
      rw [hf] at this
      simp at this
    · rw [writeFileAt_find_other P r r' c 432 h p hq2 hq1] at hf
      exact Or.inr ⟨c2, hf⟩
  · intro p es mm hf
    obtain ⟨es0, hes0⟩ := writeFileAt_dirs_shape P r r' c 432 h p es mm hf
    exact Or.inr ⟨es0, hes0⟩

/-! ## Characterization of `copyFile` -/

theorem copyFile_inv (root : Node) (sP dP : Path) (td : TemplateData)
    (r' : Node) (x : Except String Unit)
    (h : copyFile root sP dP td = (r', x)) :
    r' = root ∨
    (Node.find? root dP = none ∧
      ∃ r1, writeFileAt root dP "" 432 = some r1 ∧
        (r' = r1 ∨ ∃ out r2, writeFileAt r1 dP out 432 = some r2 ∧ r' = r2)) := by
  cases hs : Node.find? root sP with
  | none =>
    simp only [copyFile, hs] at h
    injection h with h1 h2
    exact Or.inl h1.symm
  | some srcNode =>
    cases hd : Node.find? root dP with
    | some dn =>
      simp only [copyFile, hs, hd] at h
      injection h with h1 h2
      exact Or.inl h1.symm
    | none =>
      cases hw : writeFileAt root dP "" 432 with
      | none =>
        simp only [copyFile, hs, hd, hw] at h
        injection h with h1 h2
        exact Or.inl h1.symm
      | some r1 =>
        cases srcNode with
        | dir es0 m0 =>
          simp only [copyFile, hs, hd, hw] at h
          injection h with h1 h2
          exact Or.inr ⟨rfl, r1, rfl, Or.inl h1.symm⟩
        | file c mf =>
          simp only [copyFile, hs, hd, hw] at h
          refine Or.inr ⟨rfl, r1, rfl, ?_⟩
          by_cases hemp : td.isEmpty = true
          · rw [if_pos hemp] at h
            cases hw2 : writeFileAt r1 dP c 432 with
            | none =>
              simp only [hw2] at h
              injection h with h1 h2
              exact Or.inl h1.symm
            | some r2 =>
              simp only [hw2] at h
              injection h with h1 h2
              exact Or.inr ⟨c, r2, hw2, h1.symm⟩
          · rw [if_neg hemp] at h
            cases hp : parseTemplate c with
            | error e =>
              simp only [hp] at h
              injection h with h1 h2
              exact Or.inl h1.symm
            | ok items =>
              cases hr : renderItems td items "" with
              | mk out err =>
                cases err with
                | some e =>
                  simp only [hp, hr] at h
                  cases hw2 : writeFileAt r1 dP out 432 with
                  | none =>
                    simp only [hw2] at h
                    injection h with h1 h2
                    exact Or.inl h1.symm
                  | some r2 =>
                    simp only [hw2] at h
                    injection h with h1 h2
                    exact Or.inr ⟨out, r2, hw2, h1.symm⟩
                | none =>
                  simp only [hp, hr] at h
                  cases hw2 : writeFileAt r1 dP out 432 with
                  | none =>
                    simp only [hw2] at h
                    injection h with h1 h2
                    exact Or.inl h1.symm
                  | some r2 =>
                    simp only [hw2] at h
                    injection h with h1 h2
                    exact Or.inr ⟨out, r2, hw2, h1.symm⟩

theorem copyFile_state (root : Node) (sP dP : Path) (td : TemplateData)
    (r' : Node) (x : Except String Unit)
    (h : copyFile root sP dP td = (r', x)) :
    (∀ q, q ≠ dP → contentAt r' q = contentAt root q)
    ∧ (∀ q, isDirAt r' q = isDirAt root q)
    ∧ (∀ q, ¬ dP <+: q → ¬ q <+: dP → Node.find? r' q = Node.find? root q) := by
  rcases copyFile_inv root sP dP td r' x h with rfl | ⟨hd, r1, hw1, hrest⟩
  · exact ⟨fun _ _ => rfl, fun _ => rfl, fun _ _ _ => rfl⟩
  · rcases hrest with rfl | ⟨out, r2, hw2, rfl⟩
    · exact ⟨fun q hq => writeFileAt_contentAt_other dP root r' "" 432 hw1 q hq,
        writeFileAt_isDirAt dP root r' "" 432 hw1,
        fun q h1 h2 => writeFileAt_find_other dP root r' "" 432 hw1 q h1 h2⟩
    · refine ⟨?_, ?_, ?_⟩
      · intro q hq
        rw [writeFileAt_contentAt_other dP r1 r' out 432 hw2 q hq,
          writeFileAt_contentAt_other dP root r1 "" 432 hw1 q hq]
      · intro q
        rw [writeFileAt_isDirAt dP r1 r' out 432 hw2 q,
          writeFileAt_isDirAt dP root r1 "" 432 hw1 q]
      · intro q h1 h2
        rw [writeFileAt_find_other dP r1 r' out 432 hw2 q h1 h2,
          writeFileAt_find_other dP root r1 "" 432 hw1 q h1 h2]

theorem copyFile_preserveContent (root : Node) (sP dP : Path) (td : TemplateData)
    (r' : Node) (x : Except String Unit)
    (h : copyFile root sP dP td = (r', x)) :
    ∀ p c, contentAt root p = some c → contentAt r' p = some c := by
  intro p c hp
  rcases copyFile_inv root sP dP td r' x h with rfl | ⟨hd, r1, hw1, hrest⟩
  · exact hp
  · have hpne : p ≠ dP := by
      rintro rfl
      unfold contentAt at hp
      rw [hd] at hp
      exact Option.noConfusion hp
    rw [(copyFile_state root sP dP td r' x h).1 p hpne]
    exact hp

theorem copyFile_modes (root : Node) (sP dP : Path) (td : TemplateData)
    (r' : Node) (x : Except String Unit)
    (h : copyFile root sP dP td = (r', x)) : modesOK root r' := by
  rcases copyFile_inv root sP dP td r' x h with rfl | ⟨hd, r1, hw1, hrest⟩
  · exact modesOK_refl r'
  · rcases hrest with rfl | ⟨out, r2, hw2, rfl⟩
    · exact writeFileAt_modes dP root r' "" hw1
    · exact modesOK_trans (writeFileAt_modes dP root r1 "" hw1)
        (writeFileAt_modes dP r1 r' out hw2)

theorem copyFile_collision (root : Node) (sP dP : Path) (td : TemplateData)
    (sn dn : Node) (hs : Node.find? root sP = some sn)
    (hd : Node.find? root dP = some dn) :
    copyFile root sP dP td =
      (root, Except.error ("creating dst file: open " ++ pathStr dP ++ ": file exists")) := by
  unfold copyFile
  rw [hs, hd]

theorem copyFile_empty_ok (root : Node) (sP dP : Path) (r' : Node)
    (h : copyFile root sP dP [] = (r', Except.ok ())) :
    ∃ c mf, Node.find? root sP = some (Node.file c mf) ∧
      Node.find? root dP = none ∧
      contentAt r' dP = some c ∧
      (∀ q, q ≠ dP → contentAt r' q = contentAt root q) ∧
      (∀ q, isDirAt r' q = isDirAt root q) ∧
      (∀ q, ¬ dP <+: q → ¬ q <+: dP → Node.find? r' q = Node.find? root q) := by
  have hstate := copyFile_state root sP dP [] r' (Except.ok ()) h
  cases hs : Node.find? root sP with
  | none =>
    simp only [copyFile, hs] at h
    injection h with h1 h2
    exact Except.noConfusion h2
  | some srcNode =>
    cases hd : Node.find? root dP with
    | some dn =>
      simp only [copyFile, hs, hd] at h
      injection h with h1 h2
      exact Except.noConfusion h2
    | none =>
      cases hw : writeFileAt root dP "" 432 with
      | none =>
        simp only [copyFile, hs, hd, hw] at h
        injection h with h1 h2
        exact Except.noConfusion h2
      | some r1 =>
        cases srcNode with
        | dir es0 m0 =>
          simp only [copyFile, hs, hd, hw] at h
          injection h with h1 h2
          exact Except.noConfusion h2
        | file c mf =>
          simp only [copyFile, hs, hd, hw, List.isEmpty, if_true] at h
          cases hw2 : writeFileAt r1 dP c 432 with
          | none =>
            simp only [hw2] at h
            injection h with h1 h2
            exact Except.noConfusion h2
          | some r2 =>
            simp only [hw2] at h
            injection h with h1 h2
            subst h1
            exact ⟨c, mf, rfl, rfl,
              writeFileAt_contentAt_self dP r1 r2 c 432 hw2,
              hstate.1, hstate.2.1, hstate.2.2⟩


/-! ## Run invariants of `processEntries` and `CopyDir2` -/

theorem processEntries_nil_inv (step : Node → Path → Node × Except String Unit)
    (root : Node) (src tgt : Path) (td : TemplateData) (r' : Node)
    (x : Except String Unit)
    (h : processEntries step root src tgt td [] = (r', x)) : r' = root := by
  simp only [processEntries] at h
  injection h with h1 h2
  exact h1.symm

theorem processEntries_modes (step : Node → Path → Node × Except String Unit)
    (hstep : ∀ r s r2 y, step r s = (r2, y) → modesOK r r2) :
    ∀ (es : List DirEntry) (root : Node) (src tgt : Path) (td : TemplateData)
      (r' : Node) (x : Except String Unit),
      processEntries step root src tgt td es = (r', x) → modesOK root r' := by
  intro es
  induction es with
  | nil =>
    intro root src tgt td r' x h
    rw [processEntries_nil_inv step root src tgt td r' x h]
    exact modesOK_refl root
  | cons e rest ih =>
    intro root src tgt td r' x h
    simp only [processEntries] at h
    by_cases he : e.isDir = true
    · rw [if_pos he] at h
      cases hstep0 : step root (src ++ [e.name]) with
      | mk r1 y =>
        cases y with
        | error err =>
          simp only [hstep0] at h
          injection h with h1 h2
          rw [← h1]
          exact hstep root (src ++ [e.name]) r1 (Except.error err) hstep0
        | ok u =>
          simp only [hstep0] at h
          exact modesOK_trans
            (hstep root (src ++ [e.name]) r1 (Except.ok u) hstep0)
            (ih r1 src tgt td r' x h)
    · rw [if_neg he] at h
      cases hn : computeName td e.name (src ++ [e.name]) with
      | error err =>
        simp only [hn] at h
        injection h with h1 h2
        rw [← h1]
        exact modesOK_refl root
      | ok name =>
        simp only [hn] at h
        cases hcf : copyFile root (src ++ [e.name]) (tgt ++ [name]) td with
        | mk r1 y =>
          cases y with
          | error err =>
            simp only [hcf] at h
            injection h with h1 h2
            rw [← h1]
            exact copyFile_modes root _ _ td r1 _ hcf
          | ok u =>
            simp only [hcf] at h
            exact modesOK_trans (copyFile_modes root _ _ td r1 _ hcf)
              (ih r1 src tgt td r' x h)

theorem processEntries_preserveContent
    (step : Node → Path → Node × Except String Unit)
    (hstep : ∀ r s r2 y, step r s = (r2, y) →
      ∀ p c, contentAt r p = some c → contentAt r2 p = some c) :
    ∀ (es : List DirEntry) (root : Node) (src tgt : Path) (td : TemplateData)
      (r' : Node) (x : Except String Unit),
      processEntries step root src tgt td es = (r', x) →
      ∀ p c, contentAt root p = some c → contentAt r' p = some c := by
  intro es
  induction es with
  | nil =>
    intro root src tgt td r' x h p c hp
    rw [processEntries_nil_inv step root src tgt td r' x h]
    exact hp
  | cons e rest ih =>
    intro root src tgt td r' x h p c hp
    simp only [processEntries] at h
    by_cases he : e.isDir = true
    · rw [if_pos he] at h
      cases hstep0 : step root (src ++ [e.name]) with
      | mk r1 y =>
        cases y with
        | error err =>
          simp only [hstep0] at h
          injection h with h1 h2
          rw [← h1]
          exact hstep root (src ++ [e.name]) r1 _ hstep0 p c hp
        | ok u =>
          simp only [hstep0] at h
          exact ih r1 src tgt td r' x h p c
            (hstep root (src ++ [e.name]) r1 _ hstep0 p c hp)
    · rw [if_neg he] at h
      cases hn : computeName td e.name (src ++ [e.name]) with
      | error err =>
        simp only [hn] at h
        injection h with h1 h2
        rw [← h1]
        exact hp
      | ok name =>
        simp only [hn] at h
        cases hcf : copyFile root (src ++ [e.name]) (tgt ++ [name]) td with
        | mk r1 y =>
          cases y with
          | error err =>
            simp only [hcf] at h
            injection h with h1 h2
            rw [← h1]
            exact copyFile_preserveContent root _ _ td r1 _ hcf p c hp
          | ok u =>
            simp only [hcf] at h
            exact ih r1 src tgt td r' x h p c
              (copyFile_preserveContent root _ _ td r1 _ hcf p c hp)

theorem processEntries_frame (step : Node → Path → Node × Except String Unit)
    (tgt : Path)
    (hstep : ∀ r s r2 y, step r s = (r2, y) →
      ∀ q, Incomp q tgt → Node.find? r2 q = Node.find? r q) :
    ∀ (es : List DirEntry) (root : Node) (src : Path) (td : TemplateData)
      (r' : Node) (x : Except String Unit),
      processEntries step root src tgt td es = (r', x) →
      ∀ q, Incomp q tgt → Node.find? r' q = Node.find? root q := by
  intro es
  induction es with
  | nil =>
    intro root src td r' x h q hq
    rw [processEntries_nil_inv step root src tgt td r' x h]
  | cons e rest ih =>
    intro root src td r' x h q hq
    simp only [processEntries] at h
    by_cases he : e.isDir = true
    · rw [if_pos he] at h
      cases hstep0 : step root (src ++ [e.name]) with
      | mk r1 y =>
        cases y with
        | error err =>
          simp only [hstep0] at h
          injection h with h1 h2
          rw [← h1]
          exact hstep root (src ++ [e.name]) r1 _ hstep0 q hq
        | ok u =>
          simp only [hstep0] at h
          rw [ih r1 src td r' x h q hq]
          exact hstep root (src ++ [e.name]) r1 _ hstep0 q hq
    · rw [if_neg he] at h
      cases hn : computeName td e.name (src ++ [e.name]) with
      | error err =>
        simp only [hn] at h
        injection h with h1 h2
        rw [← h1]
      | ok name =>
        simp only [hn] at h
        cases hcf : copyFile root (src ++ [e.name]) (tgt ++ [name]) td with
        | mk r1 y =>
          have hfr : ∀ q2, Incomp q2 tgt → Node.find? r1 q2 = Node.find? root q2 := by
            intro q2 hq2
            have hq2' : Incomp q2 (tgt ++ [name]) := incomp_extend_right name hq2
            exact (copyFile_state root _ _ td r1 y hcf).2.2 q2 hq2'.2 hq2'.1
          cases y with
          | error err =>
            simp only [hcf] at h
            injection h with h1 h2
            rw [← h1]
            exact hfr q hq
          | ok u =>
            simp only [hcf] at h
            rw [ih r1 src td r' x h q hq]
            exact hfr q hq

theorem CopyDir2_zero_inv (root : Node) (src dst : Path) (rn : RenameFn)
    (td : TemplateData) (r' : Node) (x : Except String Unit)
    (h : CopyDir2 0 root src dst rn td = (r', x)) : r' = root := by
  simp only [CopyDir2] at h
  injection h with h1 h2
  exact h1.symm

theorem CopyDir2_succ_inv (fuel : Nat) (root : Node) (src dst : Path)
    (rn : RenameFn) (td : TemplateData) (r' : Node) (x : Except String Unit)
    (h : CopyDir2 (fuel + 1) root src dst rn td = (r', x)) :
    r' = root ∨
    (∃ root1 entries,
      mkdirAll root (dst ++ [rn (pathBase src)]) 504 = Except.ok root1 ∧
      (r' = root1 ∨
        (readDir root1 src = Except.ok entries ∧
         processEntries
           (fun r s => CopyDir2 fuel r s (dst ++ [rn (pathBase src)]) rn td)
           root1 src (dst ++ [rn (pathBase src)]) td entries = (r', x)))) := by
  cases hs : Node.find? root src with
  | none =>
    simp only [CopyDir2, hs] at h
    injection h with h1 h2
    exact Or.inl h1.symm
  | some sn =>
    cases hsd : sn.isDirNode with
    | false =>
      simp only [CopyDir2, hs, hsd, Bool.false_eq_true, if_false] at h
      injection h with h1 h2
      exact Or.inl h1.symm
    | true =>
      cases hd : Node.find? root dst with
      | none =>
        simp only [CopyDir2, hs, hsd, if_true, hd] at h
        injection h with h1 h2
        exact Or.inl h1.symm
      | some dn =>
        cases hdd : dn.isDirNode with
        | false =>
          simp only [CopyDir2, hs, hsd, if_true, hd, hdd, Bool.false_eq_true,
            if_false] at h
          injection h with h1 h2
          exact Or.inl h1.symm
        | true =>
          cases hmk : mkdirAll root (dst ++ [rn (pathBase src)]) 504 with
          | error e =>
            simp only [CopyDir2, hs, hsd, if_true, hd, hdd, hmk] at h
            injection h with h1 h2
            exact Or.inl h1.symm
          | ok root1 =>
            cases hrd : readDir root1 src with
            | error e =>
              simp only [CopyDir2, hs, hsd, if_true, hd, hdd, hmk, hrd] at h
              injection h with h1 h2
              exact Or.inr ⟨root1, [], rfl, Or.inl h1.symm⟩
            | ok entries =>
              simp only [CopyDir2, hs, hsd, if_true, hd, hdd, hmk, hrd] at h
              exact Or.inr ⟨root1, entries, rfl, Or.inr ⟨hrd, h⟩⟩

theorem CopyDir2_modes (fuel : Nat) :
    ∀ (root : Node) (src dst : Path) (rn : RenameFn) (td : TemplateData)
      (r' : Node) (x : Except String Unit),
      CopyDir2 fuel root src dst rn td = (r', x) → modesOK root r' := by
  induction fuel with
  | zero =>
    intro root src dst rn td r' x h
    rw [CopyDir2_zero_inv root src dst rn td r' x h]
    exact modesOK_refl root
  | succ fuel ih =>
    intro root src dst rn td r' x h
    rcases CopyDir2_succ_inv fuel root src dst rn td r' x h with
      rfl | ⟨root1, entries, hmk, hrest⟩
    · exact modesOK_refl r'
    · have hmk2 := mk_modes (dst ++ [rn (pathBase src)]) root root1 hmk
      rcases hrest with rfl | ⟨hrd, hpe⟩
      · exact hmk2
      · exact modesOK_trans hmk2
          (processEntries_modes _
            (fun r s r2 y hx => ih r s (dst ++ [rn (pathBase src)]) rn td r2 y hx)
            entries root1 src (dst ++ [rn (pathBase src)]) td r' x hpe)

theorem mk_preserveContent (P : Path) (r r' : Node) (perm : Nat)
    (h : mkdirAll r P perm = Except.ok r') :
    ∀ p c, contentAt r p = some c → contentAt r' p = some c := by
  intro p c hp
  unfold contentAt at hp ⊢
  cases hf : Node.find? r p with
  | none => rw [hf] at hp; exact Option.noConfusion hp
  | some nd =>
    cases nd with
    | dir _ _ => rw [hf] at hp; simp at hp
    | file c0 m0 =>
      rw [hf] at hp
      injection hp with hp
      rw [(mk_files P r r' perm h p c0 m0).mpr hf]
      rw [hp]

theorem CopyDir2_preserveContent (fuel : Nat) :
    ∀ (root : Node) (src dst : Path) (rn : RenameFn) (td : TemplateData)
      (r' : Node) (x : Except String Unit),
      CopyDir2 fuel root src dst rn td = (r', x) →
      ∀ p c, contentAt root p = some c → contentAt r' p = some c := by
  induction fuel with
  | zero =>
    intro root src dst rn td r' x h p c hp
    rw [CopyDir2_zero_inv root src dst rn td r' x h]
    exact hp
  | succ fuel ih =>
    intro root src dst rn td r' x h p c hp
    rcases CopyDir2_succ_inv fuel root src dst rn td r' x h with
      rfl | ⟨root1, entries, hmk, hrest⟩
    · exact hp
    · have hp1 := mk_preserveContent (dst ++ [rn (pathBase src)]) root root1 504 hmk p c hp
      rcases hrest with rfl | ⟨hrd, hpe⟩
      · exact hp1
      · exact processEntries_preserveContent _
          (fun r s r2 y hx => ih r s (dst ++ [rn (pathBase src)]) rn td r2 y hx)
          entries root1 src (dst ++ [rn (pathBase src)]) td r' x hpe p c hp1

theorem CopyDir2_frame (fuel : Nat) :
    ∀ (root : Node) (src dst : Path) (rn : RenameFn) (td : TemplateData)
      (r' : Node) (x : Except String Unit),
      CopyDir2 fuel root src dst rn td = (r', x) →
      ∀ q, Incomp q (dst ++ [rn (pathBase src)]) →
        Node.find? r' q = Node.find? root q := by
  induction fuel with
  | zero =>
    intro root src dst rn td r' x h q hq
    rw [CopyDir2_zero_inv root src dst rn td r' x h]
  | succ fuel ih =>
    intro root src dst rn td r' x h q hq
    rcases CopyDir2_succ_inv fuel root src dst rn td r' x h with
      rfl | ⟨root1, entries, hmk, hrest⟩
    · rfl
    · have hmk2 : Node.find? root1 q = Node.find? root q :=
        mk_find_other (dst ++ [rn (pathBase src)]) root root1 504 hmk q hq.1 hq.2
      rcases hrest with rfl | ⟨hrd, hpe⟩
      · exact hmk2
      · rw [processEntries_frame _ (dst ++ [rn (pathBase src)])
          (fun r s r2 y hx q2 hq2 =>
            ih r s (dst ++ [rn (pathBase src)]) rn td r2 y hx q2
              (incomp_extend_right (rn (pathBase s)) hq2))
          entries root1 src td r' x hpe q hq]
        exact hmk2

/-! ## `replaceFirst` and `DotRename` -/

theorem isPrefixOf_true_iff (pat l : List Char) :
    pat.isPrefixOf l = true ↔ l.take pat.length = pat := by
  induction pat generalizing l with
  | nil => simp [List.isPrefixOf]
  | cons a as ih =>
    cases l with
    | nil => simp [List.isPrefixOf]
    | cons b bs =>
      simp only [List.isPrefixOf, List.length_cons, List.take_succ_cons,
        Bool.and_eq_true, beq_iff_eq, List.cons.injEq, ih]
      constructor
      · rintro ⟨rfl, h⟩; exact ⟨rfl, h⟩
      · rintro ⟨rfl, h⟩; exact ⟨rfl, h⟩

theorem isPrefixOf_append_self (pat suf : List Char) :
    pat.isPrefixOf (pat ++ suf) = true := by
  rw [isPrefixOf_true_iff, List.take_append_of_le_length (Nat.le_refl _),
    List.take_length]

theorem replaceFirst_no_occ (pat rep : List Char) :
    ∀ l, hasSubstr pat l = false → replaceFirst pat rep l = l := by
  intro l
  induction l with
  | nil => intro _; simp [replaceFirst]
  | cons c rest ih =>
    intro h
    simp only [hasSubstr, Bool.or_eq_false_iff] at h
    simp [replaceFirst, h.1, ih h.2]

theorem replaceFirst_head (pat rep suf : List Char) (hne : pat ≠ []) :
    replaceFirst pat rep (pat ++ suf) = rep ++ suf := by
  cases hp : pat with
  | nil => exact absurd hp hne
  | cons p0 ptail =>
    subst hp
    show replaceFirst (p0 :: ptail) rep (p0 :: (ptail ++ suf)) = rep ++ suf
    have h1 : (p0 :: ptail).isPrefixOf (p0 :: (ptail ++ suf)) = true :=
      isPrefixOf_append_self (p0 :: ptail) suf
    have h2 : p0 :: (ptail ++ suf) = (p0 :: ptail) ++ suf := by simp
    rw [replaceFirst, h1]
    simp only [if_true]
    rw [h2, List.drop_left]

theorem replaceFirst_first_occ (pat rep : List Char) (hne : pat ≠ []) :
    ∀ pre suf, hasSubstr pat (pre ++ pat.dropLast) = false →
      replaceFirst pat rep (pre ++ (pat ++ suf)) = pre ++ (rep ++ suf) := by
  intro pre
  induction pre with
  | nil =>
    intro suf _
    simpa using replaceFirst_head pat rep suf hne
  | cons c pre' ih =>
    intro suf h
    simp only [List.cons_append, hasSubstr, Bool.or_eq_false_iff, List.append_eq] at h
    obtain ⟨hhead, htail⟩ := h
    have hlast := List.dropLast_append_getLast hne
    have hheadfull : pat.isPrefixOf (c :: (pre' ++ (pat ++ suf))) = false := by
      by_contra hx
      rw [Bool.not_eq_false, isPrefixOf_true_iff] at hx
      have hlen : pat.length ≤ (c :: (pre' ++ pat.dropLast)).length := by
        simp only [List.length_cons, List.length_append, List.length_dropLast]
        have : 1 ≤ pat.length := by
          cases pat with
          | nil => exact absurd rfl hne
          | cons _ _ => simp
        omega
      have hmid : pat ++ suf = pat.dropLast ++ ([pat.getLast hne] ++ suf) := by
        rw [← List.append_assoc, hlast]
      have hsplit : c :: (pre' ++ (pat ++ suf)) =
          (c :: (pre' ++ pat.dropLast)) ++ ([pat.getLast hne] ++ suf) := by
        rw [hmid]
        simp [List.append_assoc]
      rw [hsplit, List.take_append_of_le_length hlen] at hx
      have hpre2 : pat.isPrefixOf (c :: (pre' ++ pat.dropLast)) = true := by
        rw [isPrefixOf_true_iff]; exact hx
      rw [hpre2] at hhead
      exact absurd hhead (by simp)
    rw [List.cons_append, replaceFirst, hheadfull]
    simp only [Bool.false_eq_true, if_false, List.cons_append]
    rw [ih suf htail]

/-- Claim C3 (counterexample): `DotRename "a.dot.b"` is `"a..b"`, not the
`"a.b"` the claim states — the first occurrence of `"dot."` starts after
`"a."`, and replacing it with `"."` keeps that dot. -/
theorem dotRename_cex : DotRename "a.dot.b" ≠ "a.b" := by decide

/-- Claim C3 (amended): `DotRename` replaces only the first occurrence of
the literal substring `"dot."` with `"."` (stated generally: a name with no
occurrence is unchanged, and on `pre ++ "dot." ++ suf` with no earlier
occurrence only that occurrence is replaced); in particular
`DotRename "dot.git" = ".git"`, `DotRename "git" = "git"`, and
`DotRename "a.dot.b" = "a..b"` (not `"a.b"`). -/
theorem dotRename_spec :
    (∀ s : String, hasSubstr "dot.".data s.data = false → DotRename s = s)
    ∧ DotRename "dot.git" = ".git"
    ∧ DotRename "git" = "git"
    ∧ DotRename "a.dot.b" = "a..b"
    ∧ (∀ pre suf : String, hasSubstr "dot.".data (pre.data ++ "dot".data) = false →
        DotRename (pre ++ "dot." ++ suf) = pre ++ "." ++ suf) := by
  refine ⟨?_, by decide, by decide, by decide, ?_⟩
  · intro s h
    apply String.ext
    show (replaceFirst "dot.".data ".".data s.data) = s.data
    rw [replaceFirst_no_occ _ _ _ h]
  · intro pre suf h
    have key := replaceFirst_first_occ "dot.".data ".".data (by decide) pre.data suf.data h
    apply String.ext
    have h1 : (pre ++ "dot." ++ suf).data = pre.data ++ ("dot.".data ++ suf.data) := by
      simp [String.data_append, List.append_assoc]
    have h2 : (pre ++ "." ++ suf).data = pre.data ++ (".".data ++ suf.data) := by
      simp [String.data_append, List.append_assoc]
    have h0 : (DotRename (pre ++ "dot." ++ suf)).data =
        replaceFirst "dot.".data ".".data (pre ++ "dot." ++ suf).data := rfl
    rw [h0, h1, h2]
    exact key

/-- Claim C3 (witness): the amended statement applied at `"xyz"` (no
occurrence) and at `"a." ++ "dot." ++ "b"` (occurrence after `"a."`). -/
theorem dotRename_spec_witness :
    (hasSubstr "dot.".data "xyz".data = false ∧ DotRename "xyz" = "xyz")
    ∧ (hasSubstr "dot.".data ("a.".data ++ "dot".data) = false
        ∧ DotRename ("a." ++ "dot." ++ "b") = "a." ++ "." ++ "b") :=
  ⟨⟨by decide, dotRename_spec.1 "xyz" (by decide)⟩,
   ⟨by decide, dotRename_spec.2.2.2.2 "a." "b" (by decide)⟩⟩

/-! ## Claim C4: the precondition error names the wrong path -/

/-- Claim C4 (code evaluation at the failing input): with `src = "f"` a
regular file and `dst = "d"` a directory, `CopyDir2` fails, but the error
message names `d` — the Go code interpolates `dst` in the "is not a
directory" message even when `src` is the offending path (line 88 formats
`dst` rather than the loop variable `dir`). -/
theorem copyDir2_wrong_error_path :
    CopyDir2 1 rootSrcFile ["f"] ["d"] IdentityRename [] =
      (rootSrcFile, Except.error "d is not a directory") := rfl

/-! ## Claim C7: the spec's placeholder spelling is not Go template syntax -/

/-- Claim C7 (counterexample): with template data `[("bar", "X")]` and a
source file named `foo-\x7b\x7bbar\x7d\x7d.template` (the claim's spelling,
without the leading dot) with content `hello \x7b\x7bbar\x7d\x7d`, the
operation fails — Go's template parser rejects `\x7b\x7bbar\x7d\x7d` as an
undefined function — and no file `foo-X` is produced. -/
theorem copyTree_spec_placeholder_cex :
    contentAt (CopyDir2 2 rootSpecName ["s"] ["out"] IdentityRename [("bar", "X")]).1
        ["out", "s", "foo-X"] = none
    ∧ (CopyDir2 2 rootSpecName ["s"] ["out"] IdentityRename [("bar", "X")]).2.isOk
        = false :=
  ⟨rfl, rfl⟩

/-- Claim C7 (amended): with template data `[("bar", "X")]` and a source
file named `foo-\x7b\x7b.bar\x7d\x7d.template` (Go field syntax, with the
leading dot) with content `hello \x7b\x7b.bar\x7d\x7d`, the copy succeeds
and produces the destination file `foo-X` with content `hello X`. -/
theorem copyTree_template_example :
    contentAt (CopyDir2 2 rootGoName ["s"] ["out"] IdentityRename [("bar", "X")]).1
        ["out", "s", "foo-X"] = some "hello X"
    ∧ (CopyDir2 2 rootGoName ["s"] ["out"] IdentityRename [("bar", "X")]).2
        = Except.ok () :=
  ⟨rfl, rfl⟩

/-! ## Claim C9: rendering escapes HTML-special characters -/

/-- Claim C9: the engine is `html/template`, so a value containing
HTML-special characters is substituted in escaped form, in file contents
and in file names alike: with `bar = "<b>"`, the rendered content of `f`
is `&lt;b&gt;` (not `<b>`), and the file named
`n-\x7b\x7b.bar\x7d\x7d.template` lands at the escaped name `n-&lt;b&gt;`. -/
theorem copyTree_html_escaped :
    contentAt (CopyDir2 2 rootHtml ["s"] ["out"] IdentityRename [("bar", "<b>")]).1
        ["out", "s", "f"] = some "&lt;b&gt;"
    ∧ contentAt (CopyDir2 2 rootHtml ["s"] ["out"] IdentityRename [("bar", "<b>")]).1
        ["out", "s", "n-&lt;b&gt;"] = some "x"
    ∧ "&lt;b&gt;" ≠ "<b>" :=
  ⟨rfl, rfl, by decide⟩

/-! ## Claim C1 (counterexample part): a failed render leaves the file -/

/-- Claim C1 (counterexample): with data `[("bar", "X")]` and a source file
`s/f` whose content `a\x7b\x7b.nokey\x7d\x7db` references the absent key
`nokey`, the operation fails as the claim says, but a destination file is
left at the computed path `out/s/f` — created by the exclusive open before
rendering started — holding the partial output `"a"` written before the
missing key was hit. -/
theorem copyTree_missing_key_leaves_file :
    (CopyDir2 2 rootMissingKey ["s"] ["out"] IdentityRename [("bar", "X")]).2.isOk
        = false
    ∧ contentAt (CopyDir2 2 rootMissingKey ["s"] ["out"] IdentityRename [("bar", "X")]).1
        ["out", "s", "f"] = some "a" :=
  ⟨rfl, rfl⟩

/-! ## Claim C8: precondition failures mutate nothing -/

/-- Claim C8: when `src` or `dst` does not resolve to a directory (missing,
or a regular file), `CopyDir2` returns an error and the filesystem is
returned exactly as it was — the precondition stats run before any
mkdir or file creation. -/
theorem copyDir2_precheck (fuel : Nat) (root : Node) (src dst : Path)
    (rn : RenameFn) (td : TemplateData)
    (h : isDirAt root src = false ∨ isDirAt root dst = false) :
    ∃ e, CopyDir2 fuel root src dst rn td = (root, Except.error e) := by
  cases fuel with
  | zero => exact ⟨_, rfl⟩
  | succ fuel =>
    cases hs : Node.find? root src with
    | none =>
      exact ⟨"stat " ++ pathStr src ++ ": no such file or directory",
        by simp [CopyDir2, hs]⟩
    | some sn =>
      cases hsd : sn.isDirNode with
      | false =>
        exact ⟨pathStr dst ++ " is not a directory", by simp [CopyDir2, hs, hsd]⟩
      | true =>
        have hsrc : isDirAt root src = true := by
          unfold isDirAt
          rw [hs]
          cases sn with
          | file _ _ => simp [Node.isDirNode] at hsd
          | dir _ _ => rfl
        rcases h with h | h
        · rw [hsrc] at h; exact absurd h (by simp)
        · cases hd : Node.find? root dst with
          | none =>
            exact ⟨"stat " ++ pathStr dst ++ ": no such file or directory",
              by simp [CopyDir2, hs, hsd, hd]⟩
          | some dn =>
            cases hdd : dn.isDirNode with
            | false =>
              exact ⟨pathStr dst ++ " is not a directory",
                by simp [CopyDir2, hs, hsd, hd, hdd]⟩
            | true =>
              have : isDirAt root dst = true := by
                unfold isDirAt
                rw [hd]
                cases dn with
                | file _ _ => simp [Node.isDirNode] at hdd
                | dir _ _ => rfl
              rw [this] at h; exact absurd h (by simp)

/-- Claim C8 (witness): applied to the file-as-src fixture. -/
theorem copyDir2_precheck_witness :
    isDirAt rootSrcFile ["f"] = false
    ∧ ∃ e, CopyDir2 5 rootSrcFile ["f"] ["d"] IdentityRename []
        = (rootSrcFile, Except.error e) :=
  ⟨rfl, copyDir2_precheck 5 rootSrcFile ["f"] ["d"] IdentityRename [] (Or.inl rfl)⟩

/-! ## Claims C1 (amended), C2, C6 and C10 -/

/-- Claim C1 (amended): when a source file's content parses as a template
whose rendering hits a key absent from the (non-empty) template data, the
file-copy step fails with an error, but the destination file — created in
exclusive mode before rendering started — is left at the computed
destination path, holding the partial output rendered before the missing
key was reached. -/
theorem copyFile_missing_key (root : Node) (sP dP : Path) (td : TemplateData)
    (c : String) (mf : Nat) (items : List Item) (out emsg : String)
    (hs : Node.find? root sP = some (Node.file c mf))
    (hd : Node.find? root dP = none)
    (hne : td.isEmpty = false)
    (hp : parseTemplate c = Except.ok items)
    (hr : renderItems td items "" = (out, some emsg)) :
    (∃ r1, writeFileAt root dP "" 432 = some r1) →
    ∃ e r2, copyFile root sP dP td = (r2, Except.error e) ∧
      Node.find? r2 dP = some (Node.file out 432) := by
  rintro ⟨r1, hw⟩
  obtain ⟨r2, hw2⟩ := writeFileAt_again dP root r1 "" 432 hw out 432
  refine ⟨"executing template " ++ pathStr sP ++ " with data " ++ fmtData td ++
    ": " ++ emsg, r2, ?_, writeFileAt_find_self dP r1 r2 out 432 hw2⟩
  simp only [copyFile, hs, hd, hw, hne, Bool.false_eq_true, if_false, hp, hr, hw2]

/-- Claim C1 (witness): the amended statement at a concrete filesystem —
content `a\x7b\x7b.nokey\x7d\x7db`, data `[("bar", "X")]` — leaving the
file `out/s/f` with the partial output `"a"`. -/
theorem copyFile_missing_key_witness :
    (Node.find? rootMissingKeyMid ["s", "f"]
        = some (Node.file "a\x7b\x7b.nokey\x7d\x7db" 420)
      ∧ Node.find? rootMissingKeyMid ["out", "s", "f"] = none
      ∧ parseTemplate "a\x7b\x7b.nokey\x7d\x7db"
        = Except.ok [Item.lit "a", Item.field "nokey", Item.lit "b"])
    ∧ (∃ e r2, copyFile rootMissingKeyMid ["s", "f"] ["out", "s", "f"] [("bar", "X")]
        = (r2, Except.error e)
        ∧ Node.find? r2 ["out", "s", "f"] = some (Node.file "a" 432)) :=
  ⟨⟨rfl, rfl, rfl⟩,
    copyFile_missing_key rootMissingKeyMid ["s", "f"] ["out", "s", "f"]
      [("bar", "X")] "a\x7b\x7b.nokey\x7d\x7db" 420
      [Item.lit "a", Item.field "nokey", Item.lit "b"] "a"
      "map has no entry for key \x22nokey\x22" rfl rfl rfl rfl rfl ⟨_, rfl⟩⟩

/-- Claim C2: a file already present at a computed destination path makes
the file-copy step fail with the collision error of the exclusive create
(`O_EXCL`), and no run of `CopyDir2` ever changes the content of a file
that already existed — pre-existing files are never overwritten. -/
theorem copyTree_no_overwrite :
    (∀ (root : Node) (sP dP : Path) (td : TemplateData) (sn dn : Node),
        Node.find? root sP = some sn → Node.find? root dP = some dn →
        copyFile root sP dP td =
          (root, Except.error
            ("creating dst file: open " ++ pathStr dP ++ ": file exists")))
    ∧ (∀ (fuel : Nat) (root : Node) (src dst : Path) (rn : RenameFn)
        (td : TemplateData) (p : Path) (c : String),
        contentAt root p = some c →
        contentAt (CopyDir2 fuel root src dst rn td).1 p = some c) := by
  constructor
  · intro root sP dP td sn dn hs hd
    exact copyFile_collision root sP dP td sn dn hs hd
  · intro fuel root src dst rn td p c hp
    exact CopyDir2_preserveContent fuel root src dst rn td _ _ rfl p c hp

/-- Claim C2 (witness): with `out/s/f` already holding `"old"`, the
file-copy step reports the collision and the whole-run state keeps the old
content. -/
theorem copyTree_no_overwrite_witness :
    (Node.find? rootCollide ["s", "f"] = some (Node.file "new" 420)
      ∧ Node.find? rootCollide ["out", "s", "f"] = some (Node.file "old" 416)
      ∧ copyFile rootCollide ["s", "f"] ["out", "s", "f"] [] =
        (rootCollide, Except.error "creating dst file: open out/s/f: file exists"))
    ∧ (contentAt rootCollide ["out", "s", "f"] = some "old"
      ∧ contentAt (CopyDir2 3 rootCollide ["s"] ["out"] IdentityRename []).1
          ["out", "s", "f"] = some "old") :=
  ⟨⟨rfl, rfl,
    copyTree_no_overwrite.1 rootCollide ["s", "f"] ["out", "s", "f"] []
      (Node.file "new" 420) (Node.file "old" 416) rfl rfl⟩,
   ⟨rfl,
    copyTree_no_overwrite.2 3 rootCollide ["s"] ["out"] IdentityRename []
      ["out", "s", "f"] "old" rfl⟩⟩

/-- Claim C6: once the template data is non-empty, the name-processing
steps run for every regular file.  A name that does not end in `.template`
is still parsed and rendered as a template (first part), and a name that
does end in `.template` has the suffix stripped before the same parse and
render (second part). -/
theorem computeName_always_processes :
    (∀ (td : TemplateData) (name : String) (sp : Path) (items : List Item)
        (out : String),
        td ≠ [] →
        ".template".data.isSuffixOf name.data = false →
        parseTemplate name = Except.ok items →
        renderItems td items "" = (out, none) →
        computeName td name sp = Except.ok out)
    ∧ (∀ (td : TemplateData) (name : String) (sp : Path) (items : List Item)
        (out : String),
        td ≠ [] →
        ".template".data.isSuffixOf name.data = true →
        parseTemplate (trimSuffix name ".template") = Except.ok items →
        renderItems td items "" = (out, none) →
        computeName td name sp = Except.ok out) := by
  have hemp : ∀ td : TemplateData, td ≠ [] → td.isEmpty = false := by
    intro td htd
    cases td with
    | nil => exact absurd rfl htd
    | cons kv rest => rfl
  constructor
  · intro td name sp items out htd hsuf hp hr
    have htrim : trimSuffix name ".template" = name := by
      unfold trimSuffix
      rw [hsuf]
      simp
    unfold computeName
    rw [hemp td htd]
    simp only [Bool.false_eq_true, if_false, htrim, hp, hr]
  · intro td name sp items out htd hsuf hp hr
    unfold computeName
    rw [hemp td htd]
    simp only [Bool.false_eq_true, if_false, hp, hr]

/-- Claim C6 (witness): with data `[("bar", "X")]`, the name
`a-\x7b\x7b.bar\x7d\x7d` (no `.template` suffix) is rendered to `a-X`, and
the name `b.template` is stripped to `b`. -/
theorem computeName_always_processes_witness :
    (([("bar", "X")] : TemplateData) ≠ []
      ∧ ".template".data.isSuffixOf "a-\x7b\x7b.bar\x7d\x7d".data = false
      ∧ computeName [("bar", "X")] "a-\x7b\x7b.bar\x7d\x7d" ["s"]
        = Except.ok "a-X")
    ∧ (".template".data.isSuffixOf "b.template".data = true
      ∧ computeName [("bar", "X")] "b.template" ["s"] = Except.ok "b") :=
  ⟨⟨by decide, by decide,
    computeName_always_processes.1 [("bar", "X")] "a-\x7b\x7b.bar\x7d\x7d" ["s"]
      [Item.lit "a-", Item.field "bar"] "a-X" (by decide) (by decide) rfl rfl⟩,
   ⟨by decide,
    computeName_always_processes.2 [("bar", "X")] "b.template" ["s"]
      [Item.lit "b"] "b" (by decide) (by decide) rfl rfl⟩⟩

/-- Claim C10: across any run of `CopyDir2` (any fuel, any arguments,
success or failure), every regular file that the run creates has mode
0660 = 432 and every directory it creates has mode 0770 = 504; nodes that
already existed keep their modes. -/
theorem copyTree_creation_modes (fuel : Nat) (root : Node) (src dst : Path)
    (rn : RenameFn) (td : TemplateData) :
    modesOK root (CopyDir2 fuel root src dst rn td).1 :=
  CopyDir2_modes fuel root src dst rn td _ _ rfl

/-- Claim C10 (witness): in the two-level fixture run, the created file
`out/s/f` has mode 432 and the created directory `out/s` has mode 504. -/
theorem copyTree_creation_modes_witness :
    (Node.find? (CopyDir2 3 rootTwoLevel ["s"] ["out"] IdentityRename []).1
        ["out", "s", "f"] = some (Node.file "hi" 432)
      ∧ (432 = 432 ∨ ∃ c0, Node.find? rootTwoLevel ["out", "s", "f"]
          = some (Node.file c0 432)))
    ∧ ((504 : Nat) = 504 ∨ ∃ es0, Node.find? rootTwoLevel ["out", "s"]
        = some (Node.dir es0 504)) :=
  ⟨⟨rfl,
    (copyTree_creation_modes 3 rootTwoLevel ["s"] ["out"] IdentityRename []).1
      ["out", "s", "f"] "hi" 432 rfl⟩,
   (copyTree_creation_modes 3 rootTwoLevel ["s"] ["out"] IdentityRename []).2
      ["out", "s"] _ 504 rfl⟩

/-! ## Helpers for the copy-correctness theorem -/

theorem pathBase_concat (p : Path) (x : String) : pathBase (p ++ [x]) = x := by
  unfold pathBase
  rw [List.getLast?_concat]
  rfl

theorem contentAt_some_iff (r : Node) (p : Path) (c : String) :
    contentAt r p = some c ↔ ∃ m, Node.find? r p = some (Node.file c m) := by
  unfold contentAt
  cases hf : Node.find? r p with
  | none =>
    constructor
    · intro h; exact Option.noConfusion h
    · rintro ⟨m, hm⟩; exact Option.noConfusion hm
  | some nd =>
    cases nd with
    | file c0 m0 =>
      constructor
      · intro h
        injection h with h
        exact ⟨m0, by rw [h]⟩
      · rintro ⟨m, hm⟩
        injection hm with hm
        injection hm with h1 h2
        rw [h1]
    | dir es m0 =>
      constructor
      · intro h; exact Option.noConfusion h
      · rintro ⟨m, hm⟩
        injection hm with hm
        exact Node.noConfusion hm

theorem isDirAt_true_iff (r : Node) (p : Path) :
    isDirAt r p = true ↔ ∃ es m, Node.find? r p = some (Node.dir es m) := by
  unfold isDirAt
  cases hf : Node.find? r p with
  | none =>
    constructor
    · intro h; exact Bool.noConfusion h
    · rintro ⟨es, m, hm⟩; exact Option.noConfusion hm
  | some nd =>
    cases nd with
    | file c0 m0 =>
      constructor
      · intro h; exact Bool.noConfusion h
      · rintro ⟨es, m, hm⟩
        injection hm with hm
        exact Node.noConfusion hm
    | dir es0 m0 =>
      constructor
      · intro _; exact ⟨es0, m0, rfl⟩
      · intro _; rfl

theorem contentAt_of_isDir (r : Node) (p : Path) (h : isDirAt r p = true) :
    contentAt r p = none := by
  obtain ⟨es, m, hm⟩ := (isDirAt_true_iff r p).mp h
  unfold contentAt
  rw [hm]

theorem contentAt_congr_find {r1 r2 : Node} {p : Path}
    (h : Node.find? r1 p = Node.find? r2 p) : contentAt r1 p = contentAt r2 p := by
  unfold contentAt
  rw [h]

theorem isDirAt_congr_find {r1 r2 : Node} {p : Path}
    (h : Node.find? r1 p = Node.find? r2 p) : isDirAt r1 p = isDirAt r2 p := by
  unfold isDirAt
  rw [h]

theorem mk_contentAt (P : Path) (r r' : Node) (perm : Nat)
    (h : mkdirAll r P perm = Except.ok r') :
    ∀ p, contentAt r' p = contentAt r p := by
  intro p
  cases hc : contentAt r p with
  | some c =>
    exact (contentAt_some_iff r' p c).mpr
      (((contentAt_some_iff r p c).mp hc).imp
        (fun m hm => (mk_files P r r' perm h p c m).mpr hm))
  | none =>
    cases hc2 : contentAt r' p with
    | none => rfl
    | some c2 =>
      obtain ⟨m2, hm2⟩ := (contentAt_some_iff r' p c2).mp hc2
      have := (mk_files P r r' perm h p c2 m2).mp hm2
      rw [(contentAt_some_iff r p c2).mpr ⟨m2, this⟩] at hc
      exact Option.noConfusion hc

theorem lookupEntry_mem (es : List (String × Node)) (k : String) (v : Node)
    (h : lookupEntry es k = some v) : (k, v) ∈ es := by
  induction es with
  | nil => exact Option.noConfusion h
  | cons kv rest ih =>
    obtain ⟨k0, v0⟩ := kv
    by_cases hk : k0 = k
    · subst hk
      simp only [lookupEntry, if_pos rfl] at h
      injection h with h
      rw [h]
      exact List.mem_cons_self _ _
    · simp only [lookupEntry, if_neg hk] at h
      exact List.mem_cons_of_mem _ (ih h)

theorem mem_insertDirEntry (a e : DirEntry) (l : List DirEntry) :
    a ∈ insertDirEntry e l ↔ a = e ∨ a ∈ l := by
  induction l with
  | nil => simp [insertDirEntry]
  | cons x xs ih =>
    unfold insertDirEntry
    by_cases hlt : nameLt e.name x.name = true
    · rw [if_pos hlt]
      simp [List.mem_cons]
    · rw [if_neg hlt]
      simp only [List.mem_cons, ih]
      constructor
      · intro hx
        rcases hx with hx | hx | hx
        · exact Or.inr (Or.inl hx)
        · exact Or.inl hx
        · exact Or.inr (Or.inr hx)
      · intro hx
        rcases hx with hx | hx | hx
        · exact Or.inr (Or.inl hx)
        · exact Or.inl hx
        · exact Or.inr (Or.inr hx)

theorem mem_sortDirEntries (a : DirEntry) (l : List DirEntry) :
    a ∈ sortDirEntries l ↔ a ∈ l := by
  induction l with
  | nil => simp [sortDirEntries]
  | cons x xs ih =>
    unfold sortDirEntries at ih ⊢
    rw [List.foldr_cons, mem_insertDirEntry, ih, List.mem_cons]

theorem prefix_append_self_iff (t q : Path) : (t ++ q <+: t) ↔ q = [] := by
  constructor
  · intro h
    have := List.IsPrefix.length_le h
    rw [List.length_append] at this
    exact List.length_eq_zero.mp (by omega)
  · rintro rfl
    simp

theorem incomp_sibling (tgt : Path) (k z : String) (q : Path) (hk : k ≠ z) :
    Incomp (tgt ++ (k :: q)) (tgt ++ [z]) := by
  constructor
  · intro h
    rw [List.prefix_append_right_inj] at h
    exact hk (List.cons_prefix_cons.mp h).1
  · intro h
    rw [List.prefix_append_right_inj] at h
    exact hk (List.cons_prefix_cons.mp h).1.symm

theorem entryImageFile_congr {r1 r2 : Node} {src : Path} (rn : RenameFn)
    (hsame : ∀ ext, contentAt r1 (src ++ ext) = contentAt r2 (src ++ ext)) :
    ∀ e q c, entryImageFile r1 src rn e q c ↔ entryImageFile r2 src rn e q c := by
  intro e q c
  unfold entryImageFile
  rw [hsame [e.name]]
  constructor
  · intro hx
    rcases hx with ⟨h1, ds, f, h2, h3⟩ | hx
    · exact Or.inl ⟨h1, ds, f, h2, by rw [← hsame (e.name :: (ds ++ [f]))]; exact h3⟩
    · exact Or.inr hx
  · intro hx
    rcases hx with ⟨h1, ds, f, h2, h3⟩ | hx
    · exact Or.inl ⟨h1, ds, f, h2, by rw [hsame (e.name :: (ds ++ [f]))]; exact h3⟩
    · exact Or.inr hx

theorem entryImageDir_congr {r1 r2 : Node} {src : Path} (rn : RenameFn)
    (hsame : ∀ ext, isDirAt r1 (src ++ ext) = isDirAt r2 (src ++ ext)) :
    ∀ e q, entryImageDir r1 src rn e q ↔ entryImageDir r2 src rn e q := by
  intro e q
  unfold entryImageDir
  constructor
  · rintro ⟨h1, ds, h2, h3⟩
    exact ⟨h1, ds, h2, by rw [← hsame (e.name :: ds)]; exact h3⟩
  · rintro ⟨h1, ds, h2, h3⟩
    exact ⟨h1, ds, h2, by rw [hsame (e.name :: ds)]; exact h3⟩

theorem find?_append_dir {root : Node} {src : Path} {es : List (String × Node)}
    {m : Nat} (hsrc : Node.find? root src = some (Node.dir es m))
    (n : String) (ext : Path) :
    Node.find? root (src ++ (n :: ext)) =
      (match lookupEntry es n with
       | none => none
       | some child => Node.find? child ext) := by
  rw [find?_append, hsrc]
  rfl

theorem processEntries_dirPreserve
    (step : Node → Path → Node × Except String Unit)
    (hstep : ∀ r s r2 y, step r s = (r2, y) →
      ∀ p, isDirAt r p = true → isDirAt r2 p = true) :
    ∀ (es : List DirEntry) (root : Node) (src tgt : Path) (td : TemplateData)
      (r' : Node) (x : Except String Unit),
      processEntries step root src tgt td es = (r', x) →
      ∀ p, isDirAt root p = true → isDirAt r' p = true := by
  intro es
  induction es with
  | nil =>
    intro root src tgt td r' x h p hp
    rw [processEntries_nil_inv step root src tgt td r' x h]
    exact hp
  | cons e rest ih =>
    intro root src tgt td r' x h p hp
    simp only [processEntries] at h
    by_cases he : e.isDir = true
    · rw [if_pos he] at h
      cases hstep0 : step root (src ++ [e.name]) with
      | mk r1 y =>
        cases y with
        | error err =>
          simp only [hstep0] at h
          injection h with h1 h2
          rw [← h1]
          exact hstep root (src ++ [e.name]) r1 _ hstep0 p hp
        | ok u =>
          simp only [hstep0] at h
          exact ih r1 src tgt td r' x h p
            (hstep root (src ++ [e.name]) r1 _ hstep0 p hp)
    · rw [if_neg he] at h
      cases hn : computeName td e.name (src ++ [e.name]) with
      | error err =>
        simp only [hn] at h
        injection h with h1 h2
        rw [← h1]
        exact hp
      | ok name =>
        simp only [hn] at h
        cases hcf : copyFile root (src ++ [e.name]) (tgt ++ [name]) td with
        | mk r1 y =>
          have hdp : isDirAt r1 p = isDirAt root p :=
            (copyFile_state root _ _ td r1 y hcf).2.1 p
          cases y with
          | error err =>
            simp only [hcf] at h
            injection h with h1 h2
            rw [← h1, hdp]
            exact hp
          | ok u =>
            simp only [hcf] at h
            exact ih r1 src tgt td r' x h p (by rw [hdp]; exact hp)

theorem CopyDir2_dirPreserve (fuel : Nat) :
    ∀ (root : Node) (src dst : Path) (rn : RenameFn) (td : TemplateData)
      (r' : Node) (x : Except String Unit),
      CopyDir2 fuel root src dst rn td = (r', x) →
      ∀ p, isDirAt root p = true → isDirAt r' p = true := by
  induction fuel with
  | zero =>
    intro root src dst rn td r' x h p hp
    rw [CopyDir2_zero_inv root src dst rn td r' x h]
    exact hp
  | succ fuel ih =>
    intro root src dst rn td r' x h p hp
    rcases CopyDir2_succ_inv fuel root src dst rn td r' x h with
      rfl | ⟨root1, entries, hmk, hrest⟩
    · exact hp
    · have hp1 : isDirAt root1 p = true :=
        (mk_isDirAt (dst ++ [rn (pathBase src)]) root root1 504 hmk p).mpr (Or.inl hp)
      rcases hrest with rfl | ⟨hrd, hpe⟩
      · exact hp1
      · exact processEntries_dirPreserve _
          (fun r s r2 y hx => ih r s (dst ++ [rn (pathBase src)]) rn td r2 y hx)
          entries root1 src (dst ++ [rn (pathBase src)]) td r' x hpe p hp1

theorem contentAt_src_cons {root : Node} {src : Path} {es : List (String × Node)}
    {m : Nat} (hsrc : Node.find? root src = some (Node.dir es m))
    (n : String) (ext : Path) :
    contentAt root (src ++ (n :: ext)) =
      (match lookupEntry es n with
       | none => none
       | some child => contentAt child ext) := by
  unfold contentAt
  rw [find?_append_dir hsrc n ext]
  cases lookupEntry es n with
  | none => rfl
  | some child => rfl

theorem isDirAt_src_cons {root : Node} {src : Path} {es : List (String × Node)}
    {m : Nat} (hsrc : Node.find? root src = some (Node.dir es m))
    (n : String) (ext : Path) :
    isDirAt root (src ++ (n :: ext)) =
      (match lookupEntry es n with
       | none => false
       | some child => isDirAt child ext) := by
  unfold isDirAt
  rw [find?_append_dir hsrc n ext]
  cases lookupEntry es n with
  | none => rfl
  | some child => rfl

theorem contentAt_file_nonnil (c0 : String) (m0 : Nat) (ext : Path)
    (hne : ext ≠ []) : contentAt (Node.file c0 m0) ext = none := by
  cases ext with
  | nil => exact absurd rfl hne
  | cons x xs => rfl

theorem isDirAt_file (c0 : String) (m0 : Nat) (ext : Path) :
    isDirAt (Node.file c0 m0) ext = false := by
  cases ext with
  | nil => rfl
  | cons x xs => rfl

theorem imageFile_bridge (root : Node) (src : Path) (rn : RenameFn)
    (es_s : List (String × Node)) (m_s : Nat)
    (hsrc : Node.find? root src = some (Node.dir es_s m_s))
    (entries : List DirEntry)
    (hent : ∀ e, e ∈ entries ↔
      e ∈ es_s.map (fun kv => DirEntry.mk kv.1 kv.2.isDirNode)) :
    ∀ q c, (∃ e, e ∈ entries ∧ entryImageFile root src rn e q c) ↔
      (∃ ds f, q = ds.map rn ++ [f] ∧
        contentAt root (src ++ (ds ++ [f])) = some c) := by
  intro q c
  constructor
  · rintro ⟨e, hmem, himg⟩
    rcases himg with ⟨hd, ds, f, hq, hc⟩ | ⟨hd, hq, hc⟩
    · exact ⟨e.name :: ds, f, hq, hc⟩
    · exact ⟨[], e.name, hq, hc⟩
  · rintro ⟨ds, f, hq, hc⟩
    cases ds with
    | nil =>
      have hc2 : contentAt root (src ++ (f :: [])) = some c := hc
      rw [contentAt_src_cons hsrc f []] at hc2
      cases hl : lookupEntry es_s f with
      | none => simp only [hl] at hc2; exact Option.noConfusion hc2
      | some child =>
        simp only [hl] at hc2
        cases child with
        | dir ec mc => simp [contentAt, Node.find?] at hc2
        | file cf mf =>
          refine ⟨⟨f, false⟩, ?_, Or.inr ⟨rfl, hq, hc⟩⟩
          rw [hent]
          have : DirEntry.mk f (Node.file cf mf).isDirNode ∈
              es_s.map (fun kv => DirEntry.mk kv.1 kv.2.isDirNode) :=
            List.mem_map_of_mem _ (lookupEntry_mem es_s f _ hl)
          exact this
    | cons n ds' =>
      have hc2 : contentAt root (src ++ (n :: (ds' ++ [f]))) = some c := hc
      rw [contentAt_src_cons hsrc n (ds' ++ [f])] at hc2
      cases hl : lookupEntry es_s n with
      | none => simp only [hl] at hc2; exact Option.noConfusion hc2
      | some child =>
        simp only [hl] at hc2
        cases child with
        | file cf mf =>
          rw [contentAt_file_nonnil cf mf (ds' ++ [f]) (by simp)] at hc2
          exact Option.noConfusion hc2
        | dir ec mc =>
          refine ⟨⟨n, true⟩, ?_, Or.inl ⟨rfl, ds', f, hq, hc⟩⟩
          rw [hent]
          have : DirEntry.mk n (Node.dir ec mc).isDirNode ∈
              es_s.map (fun kv => DirEntry.mk kv.1 kv.2.isDirNode) :=
            List.mem_map_of_mem _ (lookupEntry_mem es_s n _ hl)
          exact this

theorem imageDir_bridge (root : Node) (src : Path) (rn : RenameFn)
    (es_s : List (String × Node)) (m_s : Nat)
    (hsrc : Node.find? root src = some (Node.dir es_s m_s))
    (entries : List DirEntry)
    (hent : ∀ e, e ∈ entries ↔
      e ∈ es_s.map (fun kv => DirEntry.mk kv.1 kv.2.isDirNode)) :
    ∀ q, (q = [] ∨ ∃ e, e ∈ entries ∧ entryImageDir root src rn e q) ↔
      (∃ ds, q = ds.map rn ∧ isDirAt root (src ++ ds) = true) := by
  intro q
  constructor
  · rintro (rfl | ⟨e, hmem, hd, ds, hq, hdir⟩)
    · refine ⟨[], rfl, ?_⟩
      rw [List.append_nil]
      exact (isDirAt_true_iff root src).mpr ⟨es_s, m_s, hsrc⟩
    · exact ⟨e.name :: ds, hq, hdir⟩
  · rintro ⟨ds, hq, hdir⟩
    cases ds with
    | nil => exact Or.inl hq
    | cons n ds' =>
      right
      have hdir2 : isDirAt root (src ++ (n :: ds')) = true := hdir
      rw [isDirAt_src_cons hsrc n ds'] at hdir2
      cases hl : lookupEntry es_s n with
      | none => simp only [hl] at hdir2; exact Bool.noConfusion hdir2
      | some child =>
        simp only [hl] at hdir2
        cases child with
        | file cf mf =>
          rw [isDirAt_file cf mf ds'] at hdir2
          exact Bool.noConfusion hdir2
        | dir ec mc =>
          refine ⟨⟨n, true⟩, ?_, rfl, ds', hq, hdir⟩
          rw [hent]
          have : DirEntry.mk n (Node.dir ec mc).isDirNode ∈
              es_s.map (fun kv => DirEntry.mk kv.1 kv.2.isDirNode) :=
            List.mem_map_of_mem _ (lookupEntry_mem es_s n _ hl)
          exact this

theorem path_snoc_append (p : Path) (n : String) (x : Path) :
    (p ++ [n]) ++ x = p ++ (n :: x) := by
  rw [List.append_assoc]
  rfl

theorem entryImageFile_nil (root : Node) (src : Path) (rn : RenameFn)
    (e : DirEntry) (c : String) : ¬ entryImageFile root src rn e [] c := by
  rintro (⟨_, ds, f, hq, _⟩ | ⟨_, hq, _⟩) <;> exact List.noConfusion hq

theorem entryImageDir_nil (root : Node) (src : Path) (rn : RenameFn)
    (e : DirEntry) : ¬ entryImageDir root src rn e [] := by
  rintro ⟨_, ds, hq, _⟩
  exact List.noConfusion hq

theorem entryImageFile_dir_cons (root : Node) (src : Path) (rn : RenameFn)
    (e : DirEntry) (he : e.isDir = true) (q : Path) (c : String) :
    entryImageFile root src rn e (rn e.name :: q) c ↔
      ∃ ds f, q = ds.map rn ++ [f] ∧
        contentAt root ((src ++ [e.name]) ++ (ds ++ [f])) = some c := by
  constructor
  · rintro (⟨_, ds, f, hq, hc⟩ | ⟨h1, _, _⟩)
    · injection hq with hq1 hq2
      exact ⟨ds, f, hq2, by rw [path_snoc_append]; exact hc⟩
    · rw [he] at h1
      exact Bool.noConfusion h1
  · rintro ⟨ds, f, hq, hc⟩
    exact Or.inl ⟨he, ds, f, by rw [hq], by rw [path_snoc_append] at hc; exact hc⟩

theorem entryImageFile_dir_badhead (root : Node) (src : Path) (rn : RenameFn)
    (e : DirEntry) (he : e.isDir = true) (k : String) (q : Path) (c : String)
    (hk : k ≠ rn e.name) : ¬ entryImageFile root src rn e (k :: q) c := by
  rintro (⟨_, ds, f, hq, _⟩ | ⟨h1, _, _⟩)
  · injection hq with hq1 hq2
    exact hk hq1
  · rw [he] at h1
    exact Bool.noConfusion h1

theorem entryImageFile_file_iff (root : Node) (src : Path) (rn : RenameFn)
    (e : DirEntry) (he : e.isDir = false) (q : Path) (c : String) :
    entryImageFile root src rn e q c ↔
      (q = [e.name] ∧ contentAt root (src ++ [e.name]) = some c) := by
  constructor
  · rintro (⟨h1, _, _⟩ | ⟨_, hq, hc⟩)
    · rw [he] at h1
      exact Bool.noConfusion h1
    · exact ⟨hq, hc⟩
  · rintro ⟨hq, hc⟩
    exact Or.inr ⟨he, hq, hc⟩

theorem entryImageDir_dir_cons (root : Node) (src : Path) (rn : RenameFn)
    (e : DirEntry) (he : e.isDir = true) (q : Path) :
    entryImageDir root src rn e (rn e.name :: q) ↔
      ∃ ds, q = ds.map rn ∧ isDirAt root ((src ++ [e.name]) ++ ds) = true := by
  constructor
  · rintro ⟨_, ds, hq, hdir⟩
    injection hq with hq1 hq2
    exact ⟨ds, hq2, by rw [path_snoc_append]; exact hdir⟩
  · rintro ⟨ds, hq, hdir⟩
    exact ⟨he, ds, by rw [hq], by rw [path_snoc_append] at hdir; exact hdir⟩

theorem entryImageDir_dir_badhead (root : Node) (src : Path) (rn : RenameFn)
    (e : DirEntry) (k : String) (q : Path)
    (hk : k ≠ rn e.name) : ¬ entryImageDir root src rn e (k :: q) := by
  rintro ⟨_, ds, hq, _⟩
  injection hq with hq1 hq2
  exact hk hq1

theorem entryImageDir_file (root : Node) (src : Path) (rn : RenameFn)
    (e : DirEntry) (he : e.isDir = false) (q : Path) :
    ¬ entryImageDir root src rn e q := by
  rintro ⟨h1, _⟩
  rw [he] at h1
  exact Bool.noConfusion h1

theorem processEntries_empty_char
    (step : Node → Path → Node × Except String Unit)
    (src tgt : Path) (rn : RenameFn)
    (hInc : Incomp src tgt)
    (hstepFrame : ∀ r s r2 y, step r s = (r2, y) →
      ∀ p, Incomp p (tgt ++ [rn (pathBase s)]) → Node.find? r2 p = Node.find? r p)
    (hstepDirPres : ∀ r s r2 y, step r s = (r2, y) →
      ∀ p, isDirAt r p = true → isDirAt r2 p = true)
    (hstepChar : ∀ r s r2, step r s = (r2, Except.ok ()) →
      Incomp s (tgt ++ [rn (pathBase s)]) →
      (∀ q c, contentAt r2 (tgt ++ [rn (pathBase s)] ++ q) = some c ↔
        (contentAt r (tgt ++ [rn (pathBase s)] ++ q) = some c ∨
          ∃ ds f, q = ds.map rn ++ [f] ∧ contentAt r (s ++ (ds ++ [f])) = some c))
      ∧ (∀ q, isDirAt r2 (tgt ++ [rn (pathBase s)] ++ q) = true ↔
        (isDirAt r (tgt ++ [rn (pathBase s)] ++ q) = true ∨
          ∃ ds, q = ds.map rn ∧ isDirAt r (s ++ ds) = true))) :
    ∀ (es : List DirEntry) (root : Node) (r' : Node),
      isDirAt root tgt = true →
      processEntries step root src tgt [] es = (r', Except.ok ()) →
      (∀ q c, contentAt r' (tgt ++ q) = some c ↔
        (contentAt root (tgt ++ q) = some c ∨
          ∃ e, e ∈ es ∧ entryImageFile root src rn e q c))
      ∧ (∀ q, isDirAt r' (tgt ++ q) = true ↔
        (isDirAt root (tgt ++ q) = true ∨
          ∃ e, e ∈ es ∧ entryImageDir root src rn e q)) := by
  intro es
  induction es with
  | nil =>
    intro root r' htgtdir h
    rw [processEntries_nil_inv step root src tgt [] r' _ h]
    constructor
    · intro q c
      simp
    · intro q
      simp
  | cons e rest ih =>
    intro root r' htgtdir h
    simp only [processEntries] at h
    by_cases he : e.isDir = true
    · -- directory entry
      rw [if_pos he] at h
      cases hstep0 : step root (src ++ [e.name]) with
      | mk r1 y =>
        cases y with
        | error err =>
          simp only [hstep0] at h
          injection h with h1 h2
          exact Except.noConfusion h2
        | ok u =>
          cases u
          simp only [hstep0] at h
          have hBase : pathBase (src ++ [e.name]) = e.name := pathBase_concat src e.name
          have hInc2 : Incomp (src ++ [e.name]) (tgt ++ [rn e.name]) :=
            incomp_children e.name (rn e.name) hInc
          have hchar := hstepChar root (src ++ [e.name]) r1 hstep0 (by rw [hBase]; exact hInc2)
          rw [hBase] at hchar
          have hsrcsame : ∀ ext, Node.find? r1 (src ++ ext) = Node.find? root (src ++ ext) := by
            intro ext
            apply hstepFrame root (src ++ [e.name]) r1 _ hstep0
            rw [hBase]
            exact incomp_extend_right (rn e.name) (incomp_src_ext ext hInc)
          have hcontsame : ∀ ext, contentAt r1 (src ++ ext) = contentAt root (src ++ ext) :=
            fun ext => contentAt_congr_find (hsrcsame ext)
          have hdirsame : ∀ ext, isDirAt r1 (src ++ ext) = isDirAt root (src ++ ext) :=
            fun ext => isDirAt_congr_find (hsrcsame ext)
          have himgF := entryImageFile_congr rn hcontsame
          have himgD := entryImageDir_congr rn hdirsame
          have htgtdir1 : isDirAt r1 tgt = true :=
            hstepDirPres root (src ++ [e.name]) r1 _ hstep0 tgt htgtdir
          obtain ⟨ihc, ihd⟩ := ih r1 r' htgtdir1 h
          have hstar : ∀ q c, contentAt r1 (tgt ++ q) = some c ↔
              (contentAt root (tgt ++ q) = some c ∨ entryImageFile root src rn e q c) := by
            intro q c
            cases q with
            | nil =>
              rw [List.append_nil,
                contentAt_of_isDir r1 tgt htgtdir1, contentAt_of_isDir root tgt htgtdir]
              constructor
              · intro hx
                exact Option.noConfusion hx
              · rintro (hx | hx)
                · exact Option.noConfusion hx
                · exact absurd hx (entryImageFile_nil root src rn e c)
            | cons k q2 =>
              by_cases hk : k = rn e.name
              · subst hk
                rw [← path_snoc_append tgt (rn e.name) q2, hchar.1 q2 c,
                  entryImageFile_dir_cons root src rn e he q2 c]
              · have hfr : Node.find? r1 (tgt ++ (k :: q2)) =
                    Node.find? root (tgt ++ (k :: q2)) := by
                  apply hstepFrame root (src ++ [e.name]) r1 _ hstep0
                  rw [hBase]
                  exact incomp_sibling tgt k (rn e.name) q2 hk
                rw [contentAt_congr_find hfr]
                constructor
                · exact fun hx => Or.inl hx
                · rintro (hx | hx)
                  · exact hx
                  · exact absurd hx
                      (entryImageFile_dir_badhead root src rn e he k q2 c hk)
          have hstarD : ∀ q, isDirAt r1 (tgt ++ q) = true ↔
              (isDirAt root (tgt ++ q) = true ∨ entryImageDir root src rn e q) := by
            intro q
            cases q with
            | nil =>
              rw [List.append_nil, htgtdir1, htgtdir]
              constructor
              · exact fun _ => Or.inl rfl
              · exact fun _ => rfl
            | cons k q2 =>
              by_cases hk : k = rn e.name
              · subst hk
                rw [← path_snoc_append tgt (rn e.name) q2, hchar.2 q2,
                  entryImageDir_dir_cons root src rn e he q2]
              · have hfr : Node.find? r1 (tgt ++ (k :: q2)) =
                    Node.find? root (tgt ++ (k :: q2)) := by
                  apply hstepFrame root (src ++ [e.name]) r1 _ hstep0
                  rw [hBase]
                  exact incomp_sibling tgt k (rn e.name) q2 hk
                rw [isDirAt_congr_find hfr]
                constructor
                · exact fun hx => Or.inl hx
                · rintro (hx | hx)
                  · exact hx
                  · exact absurd hx
                      (entryImageDir_dir_badhead root src rn e k q2 hk)
          constructor
          · intro q c
            rw [ihc q c, hstar q c, List.exists_mem_cons_iff]
            simp only [himgF]
            rw [or_assoc]
          · intro q
            rw [ihd q, hstarD q, List.exists_mem_cons_iff]
            simp only [himgD]
            rw [or_assoc]
    · -- file entry
      rw [if_neg he] at h
      have he2 : e.isDir = false := by
        revert he
        cases e.isDir <;> simp
      have hcn : computeName [] e.name (src ++ [e.name]) = Except.ok e.name := rfl
      simp only [hcn] at h
      cases hcf : copyFile root (src ++ [e.name]) (tgt ++ [e.name]) [] with
      | mk r1 y =>
        cases y with
        | error err =>
          simp only [hcf] at h
          injection h with h1 h2
          exact Except.noConfusion h2
        | ok u =>
          cases u
          simp only [hcf] at h
          obtain ⟨c0, mf, hfs, hfd, hcont1, hother, hdireq, hfindother⟩ :=
            copyFile_empty_ok root (src ++ [e.name]) (tgt ++ [e.name]) r1 hcf
          have hsrcsame : ∀ ext, Node.find? r1 (src ++ ext) = Node.find? root (src ++ ext) := by
            intro ext
            have hI := incomp_extend_right e.name (incomp_src_ext ext hInc)
            exact hfindother (src ++ ext) hI.2 hI.1
          have hcontsame : ∀ ext, contentAt r1 (src ++ ext) = contentAt root (src ++ ext) :=
            fun ext => contentAt_congr_find (hsrcsame ext)
          have himgF := entryImageFile_congr rn hcontsame
          have hdirsame2 : ∀ ext, isDirAt r1 (src ++ ext) = isDirAt root (src ++ ext) :=
            fun ext => hdireq (src ++ ext)
          have himgD := entryImageDir_congr rn hdirsame2
          have htgtdir1 : isDirAt r1 tgt = true := by
            rw [hdireq tgt]
            exact htgtdir
          obtain ⟨ihc, ihd⟩ := ih r1 r' htgtdir1 h
          have hsrcc : contentAt root (src ++ [e.name]) = some c0 := by
            unfold contentAt
            rw [hfs]
          have hstar : ∀ q c, contentAt r1 (tgt ++ q) = some c ↔
              (contentAt root (tgt ++ q) = some c ∨ entryImageFile root src rn e q c) := by
            intro q c
            cases q with
            | nil =>
              rw [List.append_nil,
                contentAt_of_isDir r1 tgt htgtdir1, contentAt_of_isDir root tgt htgtdir]
              constructor
              · intro hx
                exact Option.noConfusion hx
              · rintro (hx | hx)
                · exact Option.noConfusion hx
                · exact absurd hx (entryImageFile_nil root src rn e c)
            | cons k q2 =>
              rw [entryImageFile_file_iff root src rn e he2 (k :: q2) c]
              by_cases hk : k = e.name
              · subst hk
                cases q2 with
                | nil =>
                  rw [hcont1]
                  have hnone : contentAt root (tgt ++ [e.name]) = none := by
                    unfold contentAt
                    rw [hfd]
                  rw [hnone, hsrcc]
                  constructor
                  · intro hx
                    exact Or.inr ⟨rfl, hx⟩
                  · rintro (hx | ⟨_, hx⟩)
                    · exact Option.noConfusion hx
                    · exact hx
                | cons k2 rest2 =>
                  rw [← path_snoc_append tgt e.name (k2 :: rest2)]
                  have hl1 : contentAt r1 ((tgt ++ [e.name]) ++ (k2 :: rest2)) = none := by
                    unfold contentAt
                    rw [find?_through_not_dir r1 (tgt ++ [e.name]) (k2 :: rest2)
                      (by rw [hdireq]; unfold isDirAt; rw [hfd]) (by simp)]
                  have hl2 : contentAt root ((tgt ++ [e.name]) ++ (k2 :: rest2)) = none := by
                    unfold contentAt
                    rw [find?_ext_none root (tgt ++ [e.name]) (k2 :: rest2) hfd]
                  rw [hl1, hl2]
                  constructor
                  · intro hx
                    exact Option.noConfusion hx
                  · rintro (hx | ⟨hx, _⟩)
                    · exact Option.noConfusion hx
                    · injection hx with hx1 hx2
                      exact List.noConfusion hx2
              · have hI := incomp_sibling tgt k e.name q2 hk
                rw [contentAt_congr_find (hfindother (tgt ++ (k :: q2)) hI.2 hI.1)]
                constructor
                · exact fun hx => Or.inl hx
                · rintro (hx | ⟨hx, _⟩)
                  · exact hx
                  · injection hx with hx1 hx2
                    exact absurd hx1 hk
          have hstarD : ∀ q, isDirAt r1 (tgt ++ q) = true ↔
              (isDirAt root (tgt ++ q) = true ∨ entryImageDir root src rn e q) := by
            intro q
            rw [hdireq (tgt ++ q)]
            constructor
            · exact fun hx => Or.inl hx
            · rintro (hx | hx)
              · exact hx
              · exact absurd hx (entryImageDir_file root src rn e he2 q)
          constructor
          · intro q c
            rw [ihc q c, hstar q c, List.exists_mem_cons_iff]
            simp only [himgF]
            rw [or_assoc]
          · intro q
            rw [ihd q, hstarD q, List.exists_mem_cons_iff]
            simp only [himgD]
            rw [or_assoc]

theorem readDir_ok_inv (r : Node) (p : Path) (entries : List DirEntry)
    (h : readDir r p = Except.ok entries) :
    ∃ es m, Node.find? r p = some (Node.dir es m) ∧
      entries = sortDirEntries (es.map (fun kv => DirEntry.mk kv.1 kv.2.isDirNode)) := by
  cases hf : Node.find? r p with
  | none =>
    simp only [readDir, hf] at h
    exact Except.noConfusion h
  | some n =>
    cases n with
    | file c m =>
      simp only [readDir, hf] at h
      exact Except.noConfusion h
    | dir es m =>
      simp only [readDir, hf] at h
      injection h with h1
      exact ⟨es, m, rfl, h1.symm⟩

theorem CopyDir2_ok_inv (fuel : Nat) (root : Node) (src dst : Path)
    (rn : RenameFn) (td : TemplateData) (r' : Node)
    (h : CopyDir2 (fuel + 1) root src dst rn td = (r', Except.ok ())) :
    ∃ root1 entries,
      mkdirAll root (dst ++ [rn (pathBase src)]) 504 = Except.ok root1 ∧
      readDir root1 src = Except.ok entries ∧
      processEntries
        (fun r s => CopyDir2 fuel r s (dst ++ [rn (pathBase src)]) rn td)
        root1 src (dst ++ [rn (pathBase src)]) td entries = (r', Except.ok ()) := by
  cases hs : Node.find? root src with
  | none =>
    simp only [CopyDir2, hs] at h
    injection h with h1 h2
    exact Except.noConfusion h2
  | some sn =>
    cases hsd : sn.isDirNode with
    | false =>
      simp only [CopyDir2, hs, hsd, Bool.false_eq_true, if_false] at h
      injection h with h1 h2
      exact Except.noConfusion h2
    | true =>
      cases hd : Node.find? root dst with
      | none =>
        simp only [CopyDir2, hs, hsd, if_true, hd] at h
        injection h with h1 h2
        exact Except.noConfusion h2
      | some dn =>
        cases hdd : dn.isDirNode with
        | false =>
          simp only [CopyDir2, hs, hsd, if_true, hd, hdd, Bool.false_eq_true,
            if_false] at h
          injection h with h1 h2
          exact Except.noConfusion h2
        | true =>
          cases hmk : mkdirAll root (dst ++ [rn (pathBase src)]) 504 with
          | error e =>
            simp only [CopyDir2, hs, hsd, if_true, hd, hdd, hmk] at h
            injection h with h1 h2
            exact Except.noConfusion h2
          | ok root1 =>
            cases hrd : readDir root1 src with
            | error e =>
              simp only [CopyDir2, hs, hsd, if_true, hd, hdd, hmk, hrd] at h
              injection h with h1 h2
              exact Except.noConfusion h2
            | ok entries =>
              simp only [CopyDir2, hs, hsd, if_true, hd, hdd, hmk, hrd] at h
              exact ⟨root1, entries, rfl, hrd, h⟩

theorem copyDir2_empty_char (fuel : Nat) :
    ∀ (root : Node) (src dst : Path) (rn : RenameFn) (r' : Node),
      CopyDir2 fuel root src dst rn [] = (r', Except.ok ()) →
      Incomp src (dst ++ [rn (pathBase src)]) →
      (∀ q c, contentAt r' ((dst ++ [rn (pathBase src)]) ++ q) = some c ↔
        (contentAt root ((dst ++ [rn (pathBase src)]) ++ q) = some c ∨
          ∃ ds f, q = ds.map rn ++ [f] ∧
            contentAt root (src ++ (ds ++ [f])) = some c))
      ∧ (∀ q, isDirAt r' ((dst ++ [rn (pathBase src)]) ++ q) = true ↔
        (isDirAt root ((dst ++ [rn (pathBase src)]) ++ q) = true ∨
          ∃ ds, q = ds.map rn ∧ isDirAt root (src ++ ds) = true)) := by
  induction fuel with
  | zero =>
    intro root src dst rn r' h hI
    simp only [CopyDir2] at h
    injection h with h1 h2
    exact Except.noConfusion h2
  | succ fuel ih =>
    intro root src dst rn r' h hI
    obtain ⟨root1, entries, hmk, hrd, hpe⟩ :=
      CopyDir2_ok_inv fuel root src dst rn [] r' h
    have hsrcsame : ∀ ext,
        Node.find? root1 (src ++ ext) = Node.find? root (src ++ ext) := by
      intro ext
      have hIe := incomp_src_ext ext hI
      exact mk_find_other (dst ++ [rn (pathBase src)]) root root1 504 hmk
        (src ++ ext) hIe.1 hIe.2
    obtain ⟨es1, m1, hfind1, hentries⟩ := readDir_ok_inv root1 src entries hrd
    have h0 := hsrcsame []
    simp only [List.append_nil] at h0
    have hsrcdir : Node.find? root src = some (Node.dir es1 m1) := by
      rw [← h0]
      exact hfind1
    have htgtdir1 : isDirAt root1 (dst ++ [rn (pathBase src)]) = true :=
      (mk_isDirAt (dst ++ [rn (pathBase src)]) root root1 504 hmk
        (dst ++ [rn (pathBase src)])).mpr (Or.inr (List.prefix_refl _))
    have hca : ∀ p, contentAt root1 p = contentAt root p :=
      mk_contentAt (dst ++ [rn (pathBase src)]) root root1 504 hmk
    have hdsame : ∀ ext, isDirAt root1 (src ++ ext) = isDirAt root (src ++ ext) :=
      fun ext => isDirAt_congr_find (hsrcsame ext)
    have hent : ∀ e, e ∈ entries ↔
        e ∈ es1.map (fun kv => DirEntry.mk kv.1 kv.2.isDirNode) := by
      intro e
      rw [hentries, mem_sortDirEntries]
    obtain ⟨hc, hd⟩ := processEntries_empty_char
      (fun r s => CopyDir2 fuel r s (dst ++ [rn (pathBase src)]) rn [])
      src (dst ++ [rn (pathBase src)]) rn hI
      (fun r s r2 y hx p hp =>
        CopyDir2_frame fuel r s (dst ++ [rn (pathBase src)]) rn [] r2 y hx p hp)
      (fun r s r2 y hx p hp =>
        CopyDir2_dirPreserve fuel r s (dst ++ [rn (pathBase src)]) rn [] r2 y hx p hp)
      (fun r s r2 hx hI2 => ih r s (dst ++ [rn (pathBase src)]) rn r2 hx hI2)
      entries root1 r' htgtdir1 hpe
    constructor
    · intro q c
      rw [hc q c, hca ((dst ++ [rn (pathBase src)]) ++ q)]
      have hcongr := entryImageFile_congr rn
        (fun ext => hca (src ++ ext))
      simp only [hcongr]
      rw [imageFile_bridge root src rn es1 m1 hsrcdir entries hent q c]
    · intro q
      rw [hd q]
      have h1 := mk_isDirAt (dst ++ [rn (pathBase src)]) root root1 504 hmk
        ((dst ++ [rn (pathBase src)]) ++ q)
      rw [prefix_append_self_iff] at h1
      rw [h1]
      have hcongrD := entryImageDir_congr rn hdsame
      simp only [hcongrD]
      rw [or_assoc, imageDir_bridge root src rn es1 m1 hsrcdir entries hent q]

/-- C5: with empty template data, a successful run of `CopyDir2` places under
`dst/rename(Base(src))` an exact image of the source tree: a path below the
target is a file exactly when it is the image, under `rename` applied to
every directory name at every level, of a source file, with byte-for-byte
the same content, and a directory exactly when it is the image of a source
directory.  Hypotheses: the run succeeded, the source is separate from the
target directory, and nothing pre-existed at the target. -/
theorem copyTree_empty_data_copy (fuel : Nat) (root : Node) (src dst : Path)
    (rn : RenameFn) (r' : Node)
    (hrun : CopyDir2 fuel root src dst rn [] = (r', Except.ok ()))
    (hsep : Incomp src (dst ++ [rn (pathBase src)]))
    (hfresh : Node.find? root (dst ++ [rn (pathBase src)]) = none) :
    (∀ q c, contentAt r' ((dst ++ [rn (pathBase src)]) ++ q) = some c ↔
      ∃ ds f, q = ds.map rn ++ [f] ∧ contentAt root (src ++ (ds ++ [f])) = some c)
    ∧ (∀ q, isDirAt r' ((dst ++ [rn (pathBase src)]) ++ q) = true ↔
      ∃ ds, q = ds.map rn ∧ isDirAt root (src ++ ds) = true) := by
  obtain ⟨hc, hd⟩ := copyDir2_empty_char fuel root src dst rn r' hrun hsep
  have hnone : ∀ q,
      Node.find? root ((dst ++ [rn (pathBase src)]) ++ q) = none :=
    fun q => find?_ext_none root (dst ++ [rn (pathBase src)]) q hfresh
  constructor
  · intro q c
    rw [hc q c]
    have hcn : contentAt root ((dst ++ [rn (pathBase src)]) ++ q) = none := by
      unfold contentAt
      rw [hnone q]
    rw [hcn]
    constructor
    · rintro (hx | hx)
      · exact Option.noConfusion hx
      · exact hx
    · exact fun hx => Or.inr hx
  · intro q
    rw [hd q]
    have hdn : isDirAt root ((dst ++ [rn (pathBase src)]) ++ q) = false := by
      unfold isDirAt
      rw [hnone q]
    rw [hdn]
    constructor
    · rintro (hx | hx)
      · exact Bool.noConfusion hx
      · exact hx
    · exact fun hx => Or.inr hx

/-- Closed instance of the C5 theorem: copying the two-level fixture with the
identity rename and no template data yields the nested file
`out/s/d2/g` with the source content `"yo"`. -/
theorem copyTree_empty_data_copy_witness :
    contentAt (CopyDir2 4 rootTwoLevel ["s"] ["out"] IdentityRename []).1
      ["out", "s", "d2", "g"] = some "yo" := by
  have h := copyTree_empty_data_copy 4 rootTwoLevel ["s"] ["out"] IdentityRename
    (CopyDir2 4 rootTwoLevel ["s"] ["out"] IdentityRename []).1
    rfl
    ⟨fun hx => absurd (List.cons_prefix_cons.mp hx).1 (by decide),
     fun hx => absurd (List.cons_prefix_cons.mp hx).1 (by decide)⟩
    rfl
  exact (h.1 ["d2", "g"] "yo").mpr ⟨["d2"], "g", rfl, rfl⟩

end Utili
